import Mathlib

/-!
Verification of the itinerary pipeline of `travel_planner_app.py`.

The pipeline's data is Python values produced by `json.loads`, modelled by `JValue`.
Numeric literals are modelled as integers; float literal forms (a fraction or an
exponent part) are treated as parse failures by the embedded parser.  Python
`dict`s are modelled as association lists in insertion order, with the
`json.loads` duplicate-key behaviour (later value overwrites, position kept).
-/

namespace TravelPlanner

/-- A parsed JSON value, the shape `json.loads` produces. -/
inductive JValue where
  | null : JValue
  | bool (b : Bool) : JValue
  | num (n : Int) : JValue
  | str (s : String) : JValue
  | arr (elems : List JValue) : JValue
  | obj (entries : List (String × JValue)) : JValue
deriving Repr

/-! ## Character classes and Python string primitives -/

/-- Whitespace accepted between tokens by the JSON grammar of `json.loads`. -/
def isJsonWs (c : Char) : Bool :=
  c = ' ' || c = '\t' || c = '\n' || c = '\r'

/-- Whitespace stripped by Python `str.strip()` with no argument (the ASCII part). -/
def isPyWs (c : Char) : Bool :=
  c = ' ' || c = '\t' || c = '\n' || c = '\r' || c = '\x0b' || c = '\x0c'

/-- The character set of `.strip(" |")` in the weather-annotation step. -/
def isStripSet (c : Char) : Bool :=
  c = ' ' || c = '|'

/-- Python `str.lstrip`: drop leading characters satisfying `p`. -/
def pyLstrip (p : Char → Bool) (l : List Char) : List Char :=
  l.dropWhile p

/-- Python `str.rstrip`: drop trailing characters satisfying `p`. -/
def pyRstrip (p : Char → Bool) (l : List Char) : List Char :=
  (l.reverse.dropWhile p).reverse

/-- Python `str.strip`: drop characters satisfying `p` from both ends. -/
def pyStrip (p : Char → Bool) (l : List Char) : List Char :=
  pyRstrip p (pyLstrip p l)

/-- Model of the `re.sub` call of `parse_llm_json` line 36: the regex is three
backticks followed by an optional `json`, replaced by the empty string; `re.sub`
removes the leftmost match and continues scanning after it, never rescanning
text joined by a removal. -/
def cleanSub : List Char → List Char
  | '`' :: '`' :: '`' :: 'j' :: 's' :: 'o' :: 'n' :: rest => cleanSub rest
  | '`' :: '`' :: '`' :: rest => cleanSub rest
  | c :: rest => c :: cleanSub rest
  | [] => []

/-- Model of the `.replace` call on line 37, deleting every occurrence of three
backticks, scanning left to right and continuing after each removal. -/
def replaceTicks : List Char → List Char
  | '`' :: '`' :: '`' :: rest => replaceTicks rest
  | c :: rest => c :: replaceTicks rest
  | [] => []

/-- The cleaning of lines 36-37 of `parse_llm_json`: the fence-removing
`re.sub`, the redundant `.replace`, then `.strip()`. -/
def clean (l : List Char) : List Char :=
  pyStrip isPyWs (replaceTicks (cleanSub l))

/-! ## A model of `json.loads`

A fuel-indexed recursive-descent parser over `List Char`.  It accepts the
shapes the pipeline can meet: literals, integers, strings with the standard
escapes and non-surrogate `\uXXXX` escapes, arrays and objects.  Float
literal forms, `NaN`/`Infinity`, and escaped surrogate pairs are treated as
parse failures; no pipeline claim exercises them. -/

/-- Value of one hexadecimal digit, upper or lower case. -/
def hexVal (c : Char) : Option Nat :=
  if '0' ≤ c ∧ c ≤ '9' then some (c.toNat - 48)
  else if 'a' ≤ c ∧ c ≤ 'f' then some (c.toNat - 87)
  else if 'A' ≤ c ∧ c ≤ 'F' then some (c.toNat - 55)
  else none

/-- Decoding of a single-character JSON string escape. -/
def escDecode (c : Char) : Option Char :=
  if c = '"' then some '"'
  else if c = '\\' then some '\\'
  else if c = '/' then some '/'
  else if c = 'b' then some '\x08'
  else if c = 'f' then some '\x0c'
  else if c = 'n' then some '\n'
  else if c = 'r' then some '\r'
  else if c = 't' then some '\t'
  else none

mutual

/-- Decode the body of a JSON string literal, after the opening quote: the
decoded characters and the input after the closing quote.  Raw control
characters are refused, as by `json.loads` in strict mode. -/
def parseStrBody : List Char → Option (List Char × List Char)
  | [] => none
  | c :: rest =>
    if c = '"' then some ([], rest)
    else if c = '\\' then parseStrEsc rest
    else if c.toNat < 32 then none
    else
      match parseStrBody rest with
      | some (cs, r) => some (c :: cs, r)
      | none => none

/-- Decode what follows a backslash in a string literal.  Escaped surrogate
code units have no counterpart among Lean characters and fail here, a
divergence from `json.loads`, which no pipeline claim exercises. -/
def parseStrEsc : List Char → Option (List Char × List Char)
  | 'u' :: h1 :: h2 :: h3 :: h4 :: rest =>
    match hexVal h1, hexVal h2, hexVal h3, hexVal h4 with
    | some a, some b, some c, some d =>
      let n := ((a * 16 + b) * 16 + c) * 16 + d
      if h : n.isValidChar then
        match parseStrBody rest with
        | some (cs, r) => some (Char.ofNatAux n h :: cs, r)
        | none => none
      else none
    | _, _, _, _ => none
  | e :: rest =>
    match escDecode e with
    | some c =>
      match parseStrBody rest with
      | some (cs, r) => some (c :: cs, r)
      | none => none
    | none => none
  | [] => none

end

/-- Accumulated value of a big-endian run of decimal digit characters. -/
def digitsToNat (ds : List Char) : Nat :=
  ds.foldl (fun a c => a * 10 + (c.toNat - 48)) 0

/-- Whether the text begins with a mark that would extend an integer
literal to a float form. -/
def floatHead : List Char → Bool
  | [] => false
  | c :: _ => c = '.' || c = 'e' || c = 'E'

/-- Parse an unsigned integer literal: a nonempty digit run with no redundant
leading zero; a following `.`, `e` or `E` is a float form and fails. -/
def parseNatLit (l : List Char) : Option (Nat × List Char) :=
  match l.takeWhile Char.isDigit, l.dropWhile Char.isDigit with
  | [], _ => none
  | d :: ds, r =>
    if d = '0' ∧ ds ≠ [] then none
    else if floatHead r then none
    else some (digitsToNat (d :: ds), r)

/-- Parse an integer literal with its optional minus sign. -/
def parseNumber (l : List Char) : Option (JValue × List Char) :=
  match l with
  | [] => none
  | c :: rest =>
    if c = '-' then
      match parseNatLit rest with
      | some (n, r) => some (.num (-(n : Int)), r)
      | none => none
    else
      match parseNatLit (c :: rest) with
      | some (n, r) => some (.num ((n : Int)), r)
      | none => none

/-- Assignment `d[k] = v` on an insertion-ordered dict: an existing key keeps
its position and gets the new value, a new key is appended.  This is how
`json.loads` resolves duplicate keys. -/
def dictSet (l : List (String × JValue)) (k : String) (v : JValue) :
    List (String × JValue) :=
  match l with
  | [] => [(k, v)]
  | (k2, v2) :: rest => if k2 = k then (k, v) :: rest else (k2, v2) :: dictSet rest k v

/-- Fold a parsed member list into a dict, entry by entry, as the decoder does. -/
def objBuild (acc : List (String × JValue)) : List (String × JValue) → List (String × JValue)
  | [] => acc
  | (k, v) :: rest => objBuild (dictSet acc k v) rest

mutual

/-- Parse one JSON value, whitespace-tolerant, fuel-indexed. -/
def parseVal : Nat → List Char → Option (JValue × List Char)
  | 0, _ => none
  | fuel + 1, l =>
    match l.dropWhile isJsonWs with
    | [] => none
    | c :: r =>
      if c = '"' then
        match parseStrBody r with
        | some (cs, r2) => some (.str (String.mk cs), r2)
        | none => none
      else if c = '[' then parseArrRest fuel r
      else if c = '{' then parseObjRest fuel r
      else if c = 'n' then
        match r with
        | 'u' :: 'l' :: 'l' :: r2 => some (.null, r2)
        | _ => none
      else if c = 't' then
        match r with
        | 'r' :: 'u' :: 'e' :: r2 => some (.bool true, r2)
        | _ => none
      else if c = 'f' then
        match r with
        | 'a' :: 'l' :: 's' :: 'e' :: r2 => some (.bool false, r2)
        | _ => none
      else parseNumber (c :: r)

/-- Parse the inside of an array, right after the opening bracket. -/
def parseArrRest : Nat → List Char → Option (JValue × List Char)
  | 0, _ => none
  | fuel + 1, l =>
    match l.dropWhile isJsonWs with
    | [] => none
    | c :: r =>
      if c = ']' then some (.arr [], r)
      else
        match parseVal fuel (c :: r) with
        | some (v, r2) =>
          match parseArrTail fuel r2 with
          | some (vs, r3) => some (.arr (v :: vs), r3)
          | none => none
        | none => none

/-- Parse the rest of an array after a completed element: comma-value pairs
up to the closing bracket. -/
def parseArrTail : Nat → List Char → Option (List JValue × List Char)
  | 0, _ => none
  | fuel + 1, l =>
    match l.dropWhile isJsonWs with
    | [] => none
    | c :: r =>
      if c = ']' then some ([], r)
      else if c = ',' then
        match parseVal fuel r with
        | some (v, r2) =>
          match parseArrTail fuel r2 with
          | some (vs, r3) => some (v :: vs, r3)
          | none => none
        | none => none
      else none

/-- Parse one `"key": value` member of an object. -/
def parseMember : Nat → List Char → Option ((String × JValue) × List Char)
  | 0, _ => none
  | fuel + 1, l =>
    match l.dropWhile isJsonWs with
    | [] => none
    | c :: r =>
      if c = '"' then
        match parseStrBody r with
        | some (cs, r2) =>
          match r2.dropWhile isJsonWs with
          | ':' :: r3 =>
            match parseVal fuel r3 with
            | some (v, r4) => some ((String.mk cs, v), r4)
            | none => none
          | _ => none
        | none => none
      else none

/-- Parse the inside of an object, right after the opening brace. -/
def parseObjRest : Nat → List Char → Option (JValue × List Char)
  | 0, _ => none
  | fuel + 1, l =>
    match l.dropWhile isJsonWs with
    | [] => none
    | c :: r =>
      if c = '}' then some (.obj [], r)
      else
        match parseMember fuel (c :: r) with
        | some (m, r2) =>
          match parseObjTail fuel r2 with
          | some (ms, r3) => some (.obj (objBuild [] (m :: ms)), r3)
          | none => none
        | none => none

/-- Parse the rest of an object after a completed member. -/
def parseObjTail : Nat → List Char → Option (List (String × JValue) × List Char)
  | 0, _ => none
  | fuel + 1, l =>
    match l.dropWhile isJsonWs with
    | [] => none
    | c :: r =>
      if c = '}' then some ([], r)
      else if c = ',' then
        match parseMember fuel r with
        | some (m, r2) =>
          match parseObjTail fuel r2 with
          | some (ms, r3) => some (m :: ms, r3)
          | none => none
        | none => none
      else none

end

/-- Model of `json.loads` on a character list: parse one value and require
only whitespace after it.  The fuel `length + 1` covers every parse the
grammar completes, since the parser spends at most one unit per consumed
character plus one at top level. -/
def jsonParse (l : List Char) : Option JValue :=
  match parseVal (l.length + 1) l with
  | some (v, rest) => if (rest.dropWhile isJsonWs).isEmpty then some v else none
  | none => none

/-! ## The pipeline of `travel_planner_app.py` -/

/-- The fallback single-day itinerary built on line 41 when parsing fails;
its description is the original, uncleaned input text. -/
def fallbackDay (text : String) : JValue :=
  .obj [("day", .num 1),
        ("activities", .arr [.obj [("time", .str "All day"),
                                   ("place_name", .str "Unknown"),
                                   ("description", .str text)]]),
        ("notes", .str "")]

/-- Lines 35-41: `parse_llm_json` cleans the text, tries `json.loads`, and on
any failure returns the fallback one-day list. -/
def parse_llm_json (text : String) : JValue :=
  match jsonParse (clean text.data) with
  | some v => v
  | none => .arr [fallbackDay text]

/-! ## A model of `json.dumps`

The canonical serialization used for the idempotence claim: default
separators (a comma-space between items, a colon-space after a key), strings
with the standard short escapes and hexadecimal escapes for the remaining
control characters, and characters outside ASCII written raw (the
`ensure_ascii=False` form of `json.dumps`). -/

/-- Decimal digit character of a value below ten. -/
def digitCh (n : Nat) : Char := Char.ofNat (48 + n)

/-- Lower-case hexadecimal digit character of a value below sixteen. -/
def hexCh (n : Nat) : Char := if n < 10 then Char.ofNat (48 + n) else Char.ofNat (87 + n)

/-- Big-endian decimal digits of a natural number, fuel-indexed so the kernel
evaluates it; the fuel bounds how many times the number is divided by ten. -/
def natCharsAux : Nat → Nat → List Char → List Char
  | 0, n, acc => digitCh n :: acc
  | fuel + 1, n, acc =>
    if n < 10 then digitCh n :: acc
    else natCharsAux fuel (n / 10) (digitCh (n % 10) :: acc)

/-- Decimal digits of a natural number, most significant first. -/
def natChars (n : Nat) : List Char := natCharsAux n n []

/-- Decimal form of an integer, with its minus sign. -/
def intChars (n : Int) : List Char :=
  if n < 0 then '-' :: natChars n.natAbs else natChars n.natAbs

/-- Serialization of one character inside a JSON string literal, as the
`json` module writes it. -/
def escChar (c : Char) : List Char :=
  if c = '"' then ['\\', '"']
  else if c = '\\' then ['\\', '\\']
  else if c = '\x08' then ['\\', 'b']
  else if c = '\x0c' then ['\\', 'f']
  else if c = '\n' then ['\\', 'n']
  else if c = '\r' then ['\\', 'r']
  else if c = '\t' then ['\\', 't']
  else if c.toNat < 32 then ['\\', 'u', '0', '0', hexCh (c.toNat / 16), hexCh (c.toNat % 16)]
  else [c]

/-- Serialization of a string body, character by character. -/
def escBody : List Char → List Char
  | [] => []
  | c :: rest => escChar c ++ escBody rest

/-- Serialization of a whole string literal, quotes included. -/
def dumpStr (s : String) : List Char :=
  '"' :: (escBody s.data ++ ['"'])

mutual

/-- Serialization of a value, `json.dumps` with default separators. -/
def dumpVal : JValue → List Char
  | .null => ['n', 'u', 'l', 'l']
  | .num n => intChars n
  | .bool true => ['t', 'r', 'u', 'e']
  | .str s => dumpStr s
  | .bool false => ['f', 'a', 'l', 's', 'e']
  | .arr [] => ['[', ']']
  | .arr (x :: xs) => '[' :: (dumpVal x ++ dumpArrTail xs)
  | .obj [] => ['{', '}']
  | .obj (m :: ms) => '{' :: (dumpMember m ++ dumpObjTail ms)

/-- Serialization of the elements after the first, and the closing bracket. -/
def dumpArrTail : List JValue → List Char
  | [] => [']']
  | x :: xs => ',' :: ' ' :: (dumpVal x ++ dumpArrTail xs)

/-- Serialization of one `"key": value` member. -/
def dumpMember : String × JValue → List Char
  | (k, v) => dumpStr k ++ (':' :: ' ' :: dumpVal v)

/-- Serialization of the members after the first, and the closing brace. -/
def dumpObjTail : List (String × JValue) → List Char
  | [] => ['}']
  | m :: ms => ',' :: ' ' :: (dumpMember m ++ dumpObjTail ms)

end

/-- String form of the serialization, the value `json.dumps` returns. -/
def dumps (v : JValue) : String := String.mk (dumpVal v)

/-! ## Python formatting of loaded values

The f-string in `get_weather` formats whatever `json.loads` put at the
extracted position, so the model needs Python `str()` on loaded values.
Containers format through `repr`; the repr of a string picks single quotes
unless the string holds a single quote and no double quote, and the model
escapes the backslash, the chosen quote and the common control characters. -/

/-- Python repr of a text string. -/
def pyReprStr (s : String) : List Char :=
  let q : Char := if s.data.contains '\x27' ∧ ¬ s.data.contains '"' then '"' else '\x27'
  let esc : Char → List Char := fun c =>
    if c = '\\' then ['\\', '\\']
    else if c = q then ['\\', q]
    else if c = '\n' then ['\\', 'n']
    else if c = '\r' then ['\\', 'r']
    else if c = '\t' then ['\\', 't']
    else [c]
  q :: (s.data.foldr (fun c acc => esc c ++ acc) [q])

mutual

/-- Python `repr()` of a loaded JSON value. -/
def pyReprVal : JValue → List Char
  | .null => ['N', 'o', 'n', 'e']
  | .bool true => ['T', 'r', 'u', 'e']
  | .bool false => ['F', 'a', 'l', 's', 'e']
  | .num n => intChars n
  | .str s => pyReprStr s
  | .arr [] => ['[', ']']
  | .arr (x :: xs) => '[' :: (pyReprVal x ++ pyReprArrTail xs)
  | .obj [] => ['{', '}']
  | .obj (m :: ms) => '{' :: (pyReprMember m ++ pyReprObjTail ms)

/-- Repr of the list elements after the first. -/
def pyReprArrTail : List JValue → List Char
  | [] => [']']
  | x :: xs => ',' :: ' ' :: (pyReprVal x ++ pyReprArrTail xs)

/-- Repr of one dict entry. -/
def pyReprMember : String × JValue → List Char
  | (k, v) => pyReprStr k ++ (':' :: ' ' :: pyReprVal v)

/-- Repr of the dict entries after the first. -/
def pyReprObjTail : List (String × JValue) → List Char
  | [] => ['}']
  | m :: ms => ',' :: ' ' :: (pyReprMember m ++ pyReprObjTail ms)

end

/-- Python `str()` of a loaded JSON value, as an f-string applies it. -/
def pyStr (v : JValue) : String :=
  match v with
  | .str s => s
  | .null => "None"
  | .bool true => "True"
  | .bool false => "False"
  | .num n => String.mk (intChars n)
  | .arr l => String.mk (pyReprVal (.arr l))
  | .obj l => String.mk (pyReprVal (.obj l))

/-! ## `get_weather` (lines 44-53)

The network is abstracted as the outcome of `requests.get(url, timeout=5)
.json()`: `none` when the request or the JSON decoding of the body raises,
`some data` when it yields a loaded value.  Everything inside the `try`
block is modelled in the `Option` monad, since every failure there, the
subscripts included, is caught by the bare `except`. -/

/-- Python subscript `v[k]` with a string key: a dict lookup; on any other
loaded value it raises. -/
def pyGetStr (v : JValue) (k : String) : Option JValue :=
  match v with
  | .obj l => lookupKey l k
  | _ => none
where
  /-- First-match association lookup, Python dict access. -/
  lookupKey : List (String × JValue) → String → Option JValue
    | [], _ => none
    | (k2, v2) :: rest, k => if k2 = k then some v2 else lookupKey rest k

/-- Python subscript `v[0]`: the first element of a list, or the first
character of a string as a one-character string; on any other loaded value
or an empty one it raises. -/
def pyGetZero (v : JValue) : Option JValue :=
  match v with
  | .arr (x :: _) => some x
  | .str s =>
    match s.data with
    | c :: _ => some (.str (String.mk [c]))
    | [] => none
  | _ => none

/-- The `try` block of `get_weather`: the field extraction on lines 48-51. -/
def weatherTry (resp : Option JValue) : Option String := do
  let data ← resp
  let cc ← pyGetStr data "current_condition"
  let cond ← pyGetZero cc
  let wd ← pyGetStr cond "weatherDesc"
  let w0 ← pyGetZero wd
  let desc ← pyGetStr w0 "value"
  let temp ← pyGetStr cond "temp_C"
  pure (pyStr desc ++ ", " ++ pyStr temp ++ "°C")

/-- Lines 44-53: `get_weather`, returning the formatted conditions string or
the sentinel on any failure. -/
def get_weather (resp : Option JValue) : String :=
  match weatherTry resp with
  | some s => s
  | none => "Weather data unavailable"

/-! ## `review_itinerary` and `create_itinerary`

The two LLM invocations are abstracted as their outcomes: `none` when
`llm.invoke` raises, `some content` when it returns a message with that
text.  `city`, `days` and `interests` reach the program's behaviour only
through the prompts and the weather request, so they are absorbed into
those outcome parameters. -/

/-- Lines 56-66: `review_itinerary`.  The `try` block holds the invocation,
the re-parse and the shape test; any raise returns the input itinerary. -/
def review_itinerary (reviewResp : Option String) (itinerary : JValue) : JValue :=
  match reviewResp with
  | none => itinerary
  | some content =>
    match parse_llm_json content with
    | .arr l => .arr l
    | _ => itinerary

/-- The single-day wrapper built on lines 142-146 when the parsed response is
a bare string. -/
def strDay (s : String) : JValue :=
  .obj [("day", .num 1),
        ("activities", .arr [.obj [("time", .str "All Day"),
                                   ("place_name", .str "Unknown"),
                                   ("category", .str "Sightseeing"),
                                   ("description", .str s)]]),
        ("notes", .str "")]

/-- The placeholder day built on lines 148-152 for any other non-list shape. -/
def invalidDay : JValue :=
  .obj [("day", .num 1),
        ("activities", .arr [.obj [("time", .str "All Day"),
                                   ("place_name", .str "Unknown"),
                                   ("category", .str "Sightseeing"),
                                   ("description", .str "Invalid response format.")]]),
        ("notes", .str "")]

/-- The shape coercion of lines 138-152: a dict is wrapped, a string becomes
its wrapper day, any other non-list becomes the placeholder, a list is kept. -/
def coerce (v : JValue) : JValue :=
  match v with
  | .obj l => .arr [.obj l]
  | .str s => .arr [strDay s]
  | .arr l => .arr l
  | _ => .arr [invalidDay]

/-- Errors `create_itinerary` can let escape: the unguarded generation call
raising, and the unguarded string concatenation in the weather loop. -/
inductive PipelineError where
  | llmFailure : PipelineError
  | typeError : PipelineError
deriving Repr, DecidableEq

/-- The body of the weather loop, lines 157-158, on one day: a dict day gets
its notes concatenated with the weather tag and stripped; concatenating a
non-string notes value raises `TypeError`; a non-dict day is untouched. -/
def annotateDay (weather : String) (day : JValue) : Except PipelineError JValue :=
  match day with
  | .obj l =>
    match (pyGetStr.lookupKey l "notes").getD (.str "") with
    | .str s =>
      .ok (.obj (dictSet l "notes"
        (.str (String.mk (pyStrip isStripSet (s.data ++ (" | Weather: " ++ weather).data))))))
    | _ => .error .typeError
  | other => .ok other

/-- The weather loop over the day list, in order, stopping at the first raise. -/
def annotateDays (weather : String) : List JValue → Except PipelineError (List JValue)
  | [] => .ok []
  | d :: ds =>
    match annotateDay weather d with
    | .ok d2 =>
      match annotateDays weather ds with
      | .ok ds2 => .ok (d2 :: ds2)
      | .error e => .error e
    | .error e => .error e

/-- The weather loop on the coerced value.  After the coercion the value is
always a list (`coerce_arr` below), so the non-list branch is never taken. -/
def annotateAll (weather : String) (v : JValue) : Except PipelineError JValue :=
  match v with
  | .arr l =>
    match annotateDays weather l with
    | .ok l2 => .ok (.arr l2)
    | .error e => .error e
  | other => .ok other

/-- Lines 70-162: `create_itinerary`.  A raise of the generation call
propagates (no guard wraps line 135); then parse, coerce, annotate with the
single weather lookup, review, return. -/
def create_itinerary (genResp : Option String) (weatherResp : Option JValue)
    (reviewResp : Option String) : Except PipelineError JValue :=
  match genResp with
  | none => .error .llmFailure
  | some content =>
    let itinerary := coerce (parse_llm_json content)
    let weather := get_weather weatherResp
    match annotateAll weather itinerary with
    | .ok annotated => .ok (review_itinerary reviewResp annotated)
    | .error e => .error e

/-! ## Shape observations on values and results -/

/-- Whether a loaded value is a sequence (a Python list). -/
def JValue.isArr : JValue → Bool
  | .arr _ => true
  | _ => false

/-- Whether a loaded value is a mapping (a Python dict). -/
def JValue.isObj : JValue → Bool
  | .obj _ => true
  | _ => false

/-- Whether a loaded value is a text string. -/
def JValue.isStr : JValue → Bool
  | .str _ => true
  | _ => false

/-- Whether a pipeline step returned a value rather than raising. -/
def exceptOk {α : Type} : Except PipelineError α → Bool
  | .ok _ => true
  | .error _ => false

/-- The notes string a day dict presents to the weather loop: the value of
its notes key, defaulted to the empty string, when that value is a string. -/
def notesString (d : JValue) : Option String :=
  match d with
  | .obj l =>
    match (pyGetStr.lookupKey l "notes").getD (.str "") with
    | .str s => some s
    | _ => none
  | _ => none

/-- The day the weather loop produces from a dict day with string notes; on
any other day it is the identity (those days are untouched or raise). -/
def annOk (weather : String) (d : JValue) : JValue :=
  match d with
  | .obj l =>
    match (pyGetStr.lookupKey l "notes").getD (.str "") with
    | .str s =>
      .obj (dictSet l "notes"
        (.str (String.mk (pyStrip isStripSet (s.data ++ (" | Weather: " ++ weather).data)))))
    | _ => d
  | _ => d

/-- The two fields `get_weather` formats, when their extraction succeeds. -/
def weatherFields (resp : Option JValue) : Option (JValue × JValue) := do
  let data ← resp
  let cc ← pyGetStr data "current_condition"
  let cond ← pyGetZero cc
  let wd ← pyGetStr cond "weatherDesc"
  let w0 ← pyGetZero wd
  let desc ← pyGetStr w0 "value"
  let temp ← pyGetStr cond "temp_C"
  pure (desc, temp)

/-! ## Structural predicates for the idempotence analysis -/

/-- Whether a list of keys is duplicate-free. -/
def keysNodup : List String → Bool
  | [] => true
  | k :: ks => !(decide (k ∈ ks)) && keysNodup ks

mutual

/-- Every object inside the value has pairwise distinct keys, as decoder
output does by construction. -/
def wfVal : JValue → Bool
  | .null => true
  | .bool _ => true
  | .num _ => true
  | .str _ => true
  | .arr l => wfArr l
  | .obj l => keysNodup (l.map Prod.fst) && wfObj l

/-- Well-formedness of every element of an array. -/
def wfArr : List JValue → Bool
  | [] => true
  | v :: vs => wfVal v && wfArr vs

/-- Well-formedness of every member value of an object. -/
def wfObj : List (String × JValue) → Bool
  | [] => true
  | m :: ms => wfVal m.2 && wfObj ms

end

/-- Length of the leading backtick run. -/
def tickRun : List Char → Nat
  | c :: rest => if c = '`' then tickRun rest + 1 else 0
  | [] => 0

/-- Whether three consecutive backticks occur anywhere in the text. -/
def fence3 : List Char → Bool
  | [] => false
  | c :: rest => (decide (c = '`') && decide (2 ≤ tickRun rest)) || fence3 rest

mutual

/-- No string inside the value, keys included, holds three consecutive
backticks, so its serialization survives the fence cleaning. -/
def ffVal : JValue → Bool
  | .null => true
  | .bool _ => true
  | .num _ => true
  | .str s => !fence3 s.data
  | .arr l => ffArr l
  | .obj l => ffObj l

/-- Fence-freedom of every element of an array. -/
def ffArr : List JValue → Bool
  | [] => true
  | v :: vs => ffVal v && ffArr vs

/-- Fence-freedom of every member of an object. -/
def ffObj : List (String × JValue) → Bool
  | [] => true
  | m :: ms => !fence3 m.1.data && ffVal m.2 && ffObj ms

end

mutual

/-- Fuel sufficient for `parseVal` on the serialization of the value. -/
def msize : JValue → Nat
  | .null => 1
  | .bool _ => 1
  | .num _ => 1
  | .str _ => 1
  | .arr l => 1 + needTail l
  | .obj l => 1 + needMTail l

/-- Fuel sufficient for the array parsers on serialized elements. -/
def needTail : List JValue → Nat
  | [] => 1
  | v :: vs => 1 + max (msize v) (needTail vs)

/-- Fuel sufficient for the object parsers on serialized members. -/
def needMTail : List (String × JValue) → Nat
  | [] => 1
  | m :: ms => 1 + max (1 + msize m.2) (needMTail ms)

end

/-- Whether the text after a serialized number cannot extend the number:
empty, or headed by something other than a digit or a float mark. -/
def numSafe : List Char → Bool
  | [] => true
  | c :: _ => !c.isDigit && !(decide (c = '.')) && !(decide (c = 'e')) && !(decide (c = 'E'))

/-- A weather-service response shape from which field extraction succeeds. -/
def sampleWeather : JValue :=
  .obj [("current_condition",
         .arr [.obj [("weatherDesc", .arr [.obj [("value", .str "Sunny")]]),
                     ("temp_C", .str "31")]])]

/-! ## Claim C1: the shape of what the normalizer returns -/

/-- C1 counterexample: on an input that is already a JSON object,
`parse_llm_json` returns that bare mapping itself, not a sequence, so the
claim that it always returns a sequence of Day-shaped values fails. -/
theorem parse_llm_json_bare_mapping :
    parse_llm_json "\x7b\x7d" = JValue.obj [] ∧
    (parse_llm_json "\x7b\x7d").isArr = false :=
  ⟨rfl, rfl⟩

/-- C1 (amended): `parse_llm_json` never raises; when strict parsing of the
cleaned text fails it returns a one-element sequence holding a Day-shaped
mapping, but when parsing succeeds it returns the parsed value unchanged,
whatever its top-level shape. -/
theorem parse_llm_json_shape (text : String) :
    (∃ v, jsonParse (clean text.data) = some v ∧ parse_llm_json text = v) ∨
    (jsonParse (clean text.data) = none ∧
      parse_llm_json text = JValue.arr [fallbackDay text] ∧
      (fallbackDay text).isObj = true) := by
  cases h : jsonParse (clean text.data) with
  | none => exact Or.inr ⟨rfl, by simp [parse_llm_json, h], rfl⟩
  | some v => exact Or.inl ⟨v, rfl, by simp [parse_llm_json, h]⟩

/-! ## Claim C2: the shape coercion of the generator -/

/-- C2 counterexample: a generation response that is a JSON list of numbers
passes the coercion unchanged, so the coerced value is a sequence whose
elements are not Day-shaped mappings. -/
theorem coerce_keeps_non_mapping_elements :
    coerce (parse_llm_json "[1, 2, 3]") =
      JValue.arr [JValue.num 1, JValue.num 2, JValue.num 3] ∧
    (JValue.num 1).isObj = false :=
  ⟨rfl, rfl⟩

/-- C2 (amended): after the coercion step the value is always a sequence: a
single mapping is wrapped into a one-element sequence, a bare string into the
one-day wrapper carrying it as the activity description, and any other
non-sequence into the placeholder day; a sequence is kept unchanged, its
elements unexamined. -/
theorem coerce_shape (text : String) :
    (coerce (parse_llm_json text)).isArr = true ∧
    (∀ l, parse_llm_json text = JValue.obj l →
      coerce (parse_llm_json text) = JValue.arr [JValue.obj l]) ∧
    (∀ s, parse_llm_json text = JValue.str s →
      coerce (parse_llm_json text) = JValue.arr [strDay s]) ∧
    (∀ l, parse_llm_json text = JValue.arr l →
      coerce (parse_llm_json text) = JValue.arr l) ∧
    ((parse_llm_json text).isObj = false → (parse_llm_json text).isStr = false →
      (parse_llm_json text).isArr = false →
      coerce (parse_llm_json text) = JValue.arr [invalidDay]) := by
  refine ⟨?_, ?_, ?_, ?_, ?_⟩
  · cases h : parse_llm_json text <;> simp [coerce, JValue.isArr]
  · intro l h
    rw [h]
    rfl
  · intro s h
    rw [h]
    rfl
  · intro l h
    rw [h]
    rfl
  · intro h1 h2 h3
    cases h : parse_llm_json text <;>
      simp_all [coerce, JValue.isArr, JValue.isObj, JValue.isStr]

/-- C2 witness: the object branch of the coercion, at a concrete response. -/
theorem coerce_shape_witness :
    coerce (parse_llm_json "\x7b\x7d") = JValue.arr [JValue.obj []] :=
  (coerce_shape "\x7b\x7d").2.1 [] rfl

/-! ## Claim C3: the weather lookup contract -/

/-- The try block of the weather lookup succeeds exactly when the two-field
extraction does, and then formats the two fields. -/
theorem weatherTry_eq_fields (resp : Option JValue) :
    weatherTry resp =
      (weatherFields resp).map (fun p => pyStr p.1 ++ ", " ++ pyStr p.2 ++ "°C") := by
  cases resp with
  | none => rfl
  | some data =>
    simp only [weatherTry, weatherFields, Option.bind_eq_bind, Option.some_bind]
    cases pyGetStr data "current_condition" with
    | none => rfl
    | some cc =>
      simp only [Option.some_bind]
      cases pyGetZero cc with
      | none => rfl
      | some cond =>
        simp only [Option.some_bind]
        cases pyGetStr cond "weatherDesc" with
        | none => rfl
        | some wd =>
          simp only [Option.some_bind]
          cases pyGetZero wd with
          | none => rfl
          | some w0 =>
            simp only [Option.some_bind]
            cases pyGetStr w0 "value" with
            | none => rfl
            | some desc =>
              simp only [Option.some_bind]
              cases pyGetStr cond "temp_C" with
              | none => rfl
              | some temp => rfl

/-- C3: `get_weather` never raises; when extraction of the two fields from
the response succeeds it returns them formatted as description, temperature
and the degree tag; on any failure it returns exactly the sentinel string. -/
theorem get_weather_spec (resp : Option JValue) :
    (∀ d t, weatherFields resp = some (d, t) →
      get_weather resp = pyStr d ++ ", " ++ pyStr t ++ "°C") ∧
    (weatherFields resp = none → get_weather resp = "Weather data unavailable") := by
  have key := weatherTry_eq_fields resp
  constructor
  · intro d t h
    simp [get_weather, key, h]
  · intro h
    simp [get_weather, key, h]

/-- C3 witness: both branches at concrete responses. -/
theorem get_weather_spec_witness :
    get_weather none = "Weather data unavailable" ∧
    get_weather (some sampleWeather) = "Sunny, 31°C" := by
  refine ⟨(get_weather_spec none).2 rfl, ?_⟩
  have h := (get_weather_spec (some sampleWeather)).1
    (JValue.str "Sunny") (JValue.str "31") rfl
  simpa using h

/-! ## Claim C4: the reviewer reverts to the original on failure -/

/-- C4: `review_itinerary` returns the original itinerary, by equality,
whenever the review invocation raises or the normalized review response is
not a sequence; when normalization yields a sequence, that sequence is the
result. -/
theorem review_itinerary_spec (reviewResp : Option String) (itinerary : JValue) :
    (reviewResp = none → review_itinerary reviewResp itinerary = itinerary) ∧
    (∀ content, reviewResp = some content →
      ((parse_llm_json content).isArr = false →
        review_itinerary reviewResp itinerary = itinerary) ∧
      ((parse_llm_json content).isArr = true →
        review_itinerary reviewResp itinerary = parse_llm_json content)) := by
  constructor
  · intro h
    rw [h]
    rfl
  · intro content h
    subst h
    constructor
    · intro hn
      cases hp : parse_llm_json content <;>
        simp_all [review_itinerary, JValue.isArr]
    · intro hy
      cases hp : parse_llm_json content <;>
        simp_all [review_itinerary, JValue.isArr]

/-- C4 witness: the raising branch and the non-sequence branch at concrete
inputs. -/
theorem review_itinerary_spec_witness :
    review_itinerary none (JValue.arr []) = JValue.arr [] ∧
    review_itinerary (some "\x7b\x7d") (JValue.arr []) = JValue.arr [] :=
  ⟨(review_itinerary_spec none (JValue.arr [])).1 rfl,
   ((review_itinerary_spec (some "\x7b\x7d") (JValue.arr [])).2 "\x7b\x7d" rfl).1 rfl⟩

/-! ## Claim C6: the parse-failure fallback -/

/-- C6: when strict parsing of the cleaned text fails, `parse_llm_json`
returns a single-Day itinerary whose one activity carries the original raw
input text verbatim as its description, with place Unknown, time All day
and empty notes. -/
theorem parse_llm_json_fallback (text : String)
    (h : jsonParse (clean text.data) = none) :
    parse_llm_json text =
      JValue.arr [JValue.obj
        [("day", JValue.num 1),
         ("activities", JValue.arr [JValue.obj
            [("time", JValue.str "All day"),
             ("place_name", JValue.str "Unknown"),
             ("description", JValue.str text)]]),
         ("notes", JValue.str "")]] := by
  simp [parse_llm_json, h, fallbackDay]

/-- C6 witness: the refusal text of the spec scenario is not parseable, and
the fallback carries it verbatim. -/
theorem parse_llm_json_fallback_witness :
    jsonParse (clean (("Sorry, I cannot help.").data)) = none ∧
    parse_llm_json "Sorry, I cannot help." =
      JValue.arr [JValue.obj
        [("day", JValue.num 1),
         ("activities", JValue.arr [JValue.obj
            [("time", JValue.str "All day"),
             ("place_name", JValue.str "Unknown"),
             ("description", JValue.str "Sorry, I cannot help.")]]),
         ("notes", JValue.str "")]] :=
  ⟨rfl, parse_llm_json_fallback "Sorry, I cannot help." rfl⟩

/-! ## Claim C9: the annotation step can raise on valid input -/

/-- C9: a valid-JSON generation response holding a day whose notes value is
a number makes the weather-annotation step raise TypeError, so
`create_itinerary` can raise although the generation call and the weather
lookup both succeed. -/
theorem create_itinerary_typeerror :
    jsonParse (("[\x7b\"day\": 1, \"notes\": 5\x7d]").data) =
      some (JValue.arr [JValue.obj [("day", JValue.num 1), ("notes", JValue.num 5)]]) ∧
    weatherTry (some sampleWeather) = some "Sunny, 31°C" ∧
    create_itinerary (some "[\x7b\"day\": 1, \"notes\": 5\x7d]") (some sampleWeather)
      (some "[]") = Except.error PipelineError.typeError :=
  ⟨rfl, rfl, rfl⟩

/-! ## Claim C10: fence deletion reaches inside string values -/

/-- C10: the cleaning deletes triple-backtick sequences anywhere in the
input, inside JSON string values included, so an input that is already
well-formed JSON with a fenced substring in a string parses to a value
different from its strict JSON parse. -/
theorem clean_deletes_fences_inside_strings :
    jsonParse (("\x7b\"a\": \"x```y\"\x7d").data) =
      some (JValue.obj [("a", JValue.str "x```y")]) ∧
    parse_llm_json "\x7b\"a\": \"x```y\"\x7d" = JValue.obj [("a", JValue.str "xy")] ∧
    parse_llm_json "\x7b\"a\": \"x```y\"\x7d" ≠ JValue.obj [("a", JValue.str "x```y")] := by
  refine ⟨rfl, rfl, ?_⟩
  intro h
  rw [show parse_llm_json "\x7b\"a\": \"x```y\"\x7d" = JValue.obj [("a", JValue.str "xy")]
    from rfl] at h
  injection h with h1
  injection h1 with h2 h3
  injection h2 with h4 h5
  injection h5 with h6
  exact absurd h6 (by decide)

/-! ## Claim C5: the weather suffix on every day's notes -/

/-- Setting a key on a dict makes lookup of that key return the new value. -/
theorem dictSet_lookup (l : List (String × JValue)) (k : String) (v : JValue) :
    pyGetStr.lookupKey (dictSet l k v) k = some v := by
  induction l with
  | nil => simp [dictSet, pyGetStr.lookupKey]
  | cons kv rest ih =>
    obtain ⟨k2, v2⟩ := kv
    by_cases h : k2 = k
    · simp [dictSet, h, pyGetStr.lookupKey]
    · simp [dictSet, h, pyGetStr.lookupKey, ih]

/-- The weather string always ends in a character the strip set spares: the
formatted branch ends in the degree tag, the sentinel in a letter. -/
theorem get_weather_ends_ok (resp : Option JValue) :
    ∃ t c, (get_weather resp).data = t ++ [c] ∧ isStripSet c = false := by
  have key := weatherTry_eq_fields resp
  cases hf : weatherFields resp with
  | none =>
    refine ⟨(("Weather data unavailabl").data), 'e', ?_, by decide⟩
    have hs : weatherTry resp = none := by rw [key, hf]; rfl
    simp [get_weather, hs]
  | some p =>
    refine ⟨((pyStr p.1 ++ ", " ++ pyStr p.2 ++ "°").data), 'C', ?_, by decide⟩
    have hs : weatherTry resp = some (pyStr p.1 ++ ", " ++ pyStr p.2 ++ "°C") := by
      rw [key, hf]
      rfl
    simp only [get_weather, hs]
    simp only [String.data_append, List.append_assoc]
    rfl

/-- Stripping spares a trailing character outside the strip set. -/
theorem pyRstrip_last (p : Char → Bool) (l : List Char) (c : Char) (hc : p c = false) :
    pyRstrip p (l ++ [c]) = l ++ [c] := by
  unfold pyRstrip
  rw [List.reverse_append]
  simp [List.dropWhile_cons, hc]

/-- Stripping the concatenation of old notes, the separator and the weather
tag keeps the whole tag as a suffix, and keeps nothing more when the old
notes are empty, as long as the weather string ends outside the strip set. -/
theorem pyStrip_weather_tag (s w t : List Char) (c : Char)
    (hw : w = t ++ [c]) (hc : isStripSet c = false) :
    ∃ X, pyStrip isStripSet (s ++ (((" | Weather: ").data) ++ w)) =
        X ++ ((("Weather: ").data) ++ w) ∧ (s = [] → X = []) := by
  have hsep : ((" | Weather: ").data) = ((" | ").data) ++ (("Weather: ").data) := rfl
  have hWfalse : isStripSet 'W' = false := rfl
  have hW : List.dropWhile isStripSet ((("Weather: ").data) ++ w) =
      (("Weather: ").data) ++ w := by
    show List.dropWhile isStripSet ('W' :: ((("eather: ").data) ++ w)) = _
    rw [List.dropWhile_cons, hWfalse]
    simp
  have hR : ∀ X : List Char, pyRstrip isStripSet (X ++ ((("Weather: ").data) ++ w)) =
      X ++ ((("Weather: ").data) ++ w) := by
    intro X
    have e : X ++ ((("Weather: ").data) ++ w) =
        (X ++ ((("Weather: ").data) ++ t)) ++ [c] := by
      rw [hw]
      simp [List.append_assoc]
    rw [e, pyRstrip_last isStripSet _ c hc]
  unfold pyStrip pyLstrip
  rw [hsep]
  rw [show s ++ (((((" | ").data) ++ (("Weather: ").data)) ++ w)) =
      (s ++ ((" | ").data)) ++ ((("Weather: ").data) ++ w) by simp [List.append_assoc]]
  rw [List.dropWhile_append]
  by_cases he : (List.dropWhile isStripSet (s ++ ((" | ").data))).isEmpty = true
  · rw [if_pos he, hW]
    exact ⟨[], by simpa using hR [], fun _ => rfl⟩
  · rw [if_neg he]
    exact ⟨List.dropWhile isStripSet (s ++ ((" | ").data)), hR _,
      fun hs => (he (by rw [hs]; rfl)).elim⟩

/-- Building a string from joined data is the joined string. -/
theorem mk_append (a b : String) : String.mk (a.data ++ b.data) = a ++ b := by
  cases a
  cases b
  rfl

/-- A day whose notes value is present as a string, or absent, annotates to
its `annOk` image; the weather loop then maps `annOk` over the whole list. -/
theorem annotateDays_eq_map (w : String) (l : List JValue)
    (hn : ∀ d ∈ l, d.isObj = true → (notesString d).isSome = true) :
    annotateDays w l = Except.ok (l.map (annOk w)) := by
  induction l with
  | nil => rfl
  | cons d ds ih =>
    have hd : annotateDay w d = Except.ok (annOk w d) := by
      cases d with
      | obj le =>
        have h1 := hn (JValue.obj le) (by simp) rfl
        cases hg : (pyGetStr.lookupKey le "notes").getD (JValue.str "") with
        | str s => simp [annotateDay, annOk, hg]
        | null => simp [notesString, hg] at h1
        | bool b => simp [notesString, hg] at h1
        | num n => simp [notesString, hg] at h1
        | arr a => simp [notesString, hg] at h1
        | obj o => simp [notesString, hg] at h1
      | null => rfl
      | bool b => rfl
      | num n => rfl
      | str s => rfl
      | arr a => rfl
    simp only [annotateDays, hd, ih (fun d2 hd2 => hn d2 (List.mem_cons_of_mem d hd2))]
    rfl

/-- The notes the annotation writes: the old string notes, the separator and
the weather, stripped at both ends. -/
theorem annOk_notes (w : String) (d : JValue) (s0 : String)
    (h : notesString d = some s0) :
    notesString (annOk w d) =
      some (String.mk (pyStrip isStripSet (s0.data ++ ((" | Weather: " ++ w)).data))) := by
  cases d with
  | obj l =>
    cases hg : (pyGetStr.lookupKey l "notes").getD (JValue.str "") with
    | str s =>
      have hs : s = s0 := by
        simp [notesString, hg] at h
        exact h
      subst hs
      simp [annOk, hg, notesString, dictSet_lookup]
    | null => simp [notesString, hg] at h
    | bool b => simp [notesString, hg] at h
    | num n => simp [notesString, hg] at h
    | arr a => simp [notesString, hg] at h
    | obj o => simp [notesString, hg] at h
  | null => simp [notesString] at h
  | bool b => simp [notesString] at h
  | num n => simp [notesString] at h
  | str s => simp [notesString] at h
  | arr a => simp [notesString] at h

/-- C5 counterexample: a day whose pre-existing notes value is a number makes
the weather-annotation step raise instead of producing a suffixed notes
field, so the claim fails for non-string notes values. -/
theorem annotate_step_raises_on_numeric_notes :
    annotateAll (get_weather none) (coerce (parse_llm_json "[\x7b\"notes\": 5\x7d]")) =
      Except.error PipelineError.typeError := rfl

/-- C5 (amended): after the weather-annotation step every mapping day whose
pre-existing notes value is a string (the empty string and an absent key
included) carries notes ending in the weather suffix built from the single
`get_weather` result; empty or absent notes yield exactly the suffix with no
leading separator.  A non-string notes value instead raises. -/
theorem annotate_weather_suffix (resp : String) (wResp : Option JValue)
    (l : List JValue)
    (hl : coerce (parse_llm_json resp) = JValue.arr l)
    (hn : ∀ d ∈ l, d.isObj = true → (notesString d).isSome = true) :
    annotateAll (get_weather wResp) (coerce (parse_llm_json resp)) =
      Except.ok (JValue.arr (l.map (annOk (get_weather wResp)))) ∧
    ∀ d ∈ l, ∀ s0, notesString d = some s0 →
      ∃ s, notesString (annOk (get_weather wResp) d) = some s ∧
        (("Weather: " ++ get_weather wResp).data <:+ s.data) ∧
        (s0 = "" → s = "Weather: " ++ get_weather wResp) := by
  constructor
  · rw [hl]
    simp only [annotateAll]
    rw [annotateDays_eq_map _ _ hn]
  · intro d hd s0 h0
    obtain ⟨t, c, htc, hc⟩ := get_weather_ends_ok wResp
    have hnote := annOk_notes (get_weather wResp) d s0 h0
    have hdata : ((" | Weather: " ++ get_weather wResp)).data =
        ((" | Weather: ").data) ++ (get_weather wResp).data :=
      String.data_append _ _
    obtain ⟨X, hX, hXnil⟩ :=
      pyStrip_weather_tag s0.data ((get_weather wResp).data) t c htc hc
    rw [hdata] at hnote
    refine ⟨_, hnote, ?_, ?_⟩
    · show (("Weather: " ++ get_weather wResp)).data <:+
        (String.mk (pyStrip isStripSet (s0.data ++ (((" | Weather: ").data) ++
          (get_weather wResp).data)))).data
      rw [String.data_append, hX]
      exact (List.suffix_append X _)
    · intro hs0
      have hempty : s0.data = [] := by rw [hs0]
      have : X = [] := hXnil (by exact hempty)
      subst this
      show String.mk (pyStrip isStripSet (s0.data ++ (((" | Weather: ").data) ++
          (get_weather wResp).data))) = "Weather: " ++ get_weather wResp
      rw [hX]
      simpa using mk_append ("Weather: ") (get_weather wResp)

/-- C5 witness: one day with empty string notes and a failing weather
request: its notes become exactly the weather tag, with no separator. -/
theorem annotate_weather_suffix_witness :
    annotateAll (get_weather none)
      (coerce (parse_llm_json "[\x7b\"day\": 1, \"notes\": \"\"\x7d]")) =
      Except.ok (JValue.arr [JValue.obj
        [("day", JValue.num 1),
         ("notes", JValue.str "Weather: Weather data unavailable")]]) := by
  have h := (annotate_weather_suffix "[\x7b\"day\": 1, \"notes\": \"\"\x7d]" none
      [JValue.obj [("day", JValue.num 1), ("notes", JValue.str "")]] rfl
      (by decide)).1
  exact h.trans (by rfl)

/-! ## Claim C7: failure semantics of the pipeline -/

/-- Whether one day annotates without raising does not depend on the
weather string. -/
theorem annotateDay_ok_indep (w w2 : String) (d : JValue) :
    exceptOk (annotateDay w d) = exceptOk (annotateDay w2 d) := by
  cases d with
  | obj l =>
    cases hg : (pyGetStr.lookupKey l "notes").getD (JValue.str "") <;>
      simp [annotateDay, hg, exceptOk]
  | null => rfl
  | bool b => rfl
  | num n => rfl
  | str s => rfl
  | arr a => rfl

/-- Whether the whole weather loop raises does not depend on the weather
string. -/
theorem annotateDays_ok_indep (w w2 : String) (l : List JValue) :
    exceptOk (annotateDays w l) = exceptOk (annotateDays w2 l) := by
  induction l with
  | nil => rfl
  | cons d ds ih =>
    have hd := annotateDay_ok_indep w w2 d
    cases h1 : annotateDay w d with
    | error e =>
      cases h2 : annotateDay w2 d with
      | error e2 => simp [annotateDays, h1, h2, exceptOk]
      | ok d2 =>
        rw [h1, h2] at hd
        simp [exceptOk] at hd
    | ok d1 =>
      cases h2 : annotateDay w2 d with
      | error e2 =>
        rw [h1, h2] at hd
        simp [exceptOk] at hd
      | ok d2 =>
        simp only [annotateDays, h1, h2]
        cases h3 : annotateDays w ds with
        | error e3 =>
          cases h4 : annotateDays w2 ds with
          | error e4 => simp [exceptOk]
          | ok l4 =>
            rw [h3, h4] at ih
            simp [exceptOk] at ih
        | ok l3 =>
          cases h4 : annotateDays w2 ds with
          | error e4 =>
            rw [h3, h4] at ih
            simp [exceptOk] at ih
          | ok l4 => simp [exceptOk]

/-- The coercion always produces a list. -/
theorem coerce_arr (v : JValue) : ∃ l, coerce v = JValue.arr l := by
  cases v <;> exact ⟨_, rfl⟩

/-- C7 counterexample: with the weather request failing and a generated day
whose notes value is a number, the pipeline still aborts, so a weather
failure does not guarantee that `create_itinerary` returns an itinerary. -/
theorem create_itinerary_weather_failure_abort :
    weatherTry none = none ∧
    create_itinerary (some "[\x7b\"notes\": 5\x7d]") none none =
      Except.error PipelineError.typeError :=
  ⟨rfl, rfl⟩

/-- C7 (amended): a failure of the generation invocation propagates as an
unhandled error whatever the other services do; a weather or review failure
never by itself aborts the pipeline: whether `create_itinerary` returns an
itinerary is independent of the weather and review outcomes, the generation
response alone deciding whether the annotation step raises. -/
theorem create_itinerary_failure_semantics :
    (∀ w r, create_itinerary none w r = Except.error PipelineError.llmFailure) ∧
    (∀ c w r w2 r2, exceptOk (create_itinerary (some c) w r) =
      exceptOk (create_itinerary (some c) w2 r2)) := by
  refine ⟨fun w r => rfl, fun c w r w2 r2 => ?_⟩
  obtain ⟨l, hl⟩ := coerce_arr (parse_llm_json c)
  have hind := annotateDays_ok_indep (get_weather w) (get_weather w2) l
  simp only [create_itinerary, hl, annotateAll]
  cases h3 : annotateDays (get_weather w) l with
  | error e =>
    cases h4 : annotateDays (get_weather w2) l with
    | error e2 => simp [exceptOk]
    | ok l4 =>
      rw [h3, h4] at hind
      simp [exceptOk] at hind
  | ok l3 =>
    cases h4 : annotateDays (get_weather w2) l with
    | error e2 =>
      rw [h3, h4] at hind
      simp [exceptOk] at hind
    | ok l4 => simp [exceptOk]

/-! ## Claim C8: auxiliary facts about serialized numbers -/

/-- The table of facts about decimal digit characters the proofs use. -/
theorem digitCh_facts : ∀ m : Nat, m < 10 →
    (digitCh m).isDigit = true ∧ ((digitCh m).toNat - 48) = m ∧
    isJsonWs (digitCh m) = false ∧ isPyWs (digitCh m) = false ∧
    (digitCh m) ≠ '-' ∧ (digitCh m) ≠ '`' ∧ (digitCh m = '0' ↔ m = 0) := by
  decide

/-- The digit accumulator only ever appends. -/
theorem natCharsAux_acc (f : Nat) : ∀ n acc, natCharsAux f n acc = natCharsAux f n [] ++ acc := by
  induction f with
  | zero => intro n acc; rfl
  | succ f ih =>
    intro n acc
    by_cases h : n < 10
    · simp [natCharsAux, h]
    · simp only [natCharsAux, if_neg h]
      rw [ih (n / 10), ih (n / 10) [digitCh (n % 10)]]
      simp

/-- Below ten the digits are the single digit, whatever the fuel. -/
theorem natCharsAux_small {n : Nat} (h : n < 10) :
    ∀ f, natCharsAux f n [] = [digitCh n] := by
  intro f
  cases f with
  | zero => rfl
  | succ f => simp [natCharsAux, h]

/-- Below ten the printed number is its single digit. -/
theorem natChars_small {n : Nat} (h : n < 10) : natChars n = [digitCh n] :=
  natCharsAux_small h n

/-- Any fuel at least the number itself prints the same digits. -/
theorem natCharsAux_fuel : ∀ n f, n ≤ f → natCharsAux f n [] = natChars n := by
  intro n
  induction n using Nat.strong_induction_on with
  | _ n ih =>
    intro f hf
    by_cases h : n < 10
    · rw [natCharsAux_small h, natChars_small h]
    · obtain ⟨k, rfl⟩ : ∃ k, n = k + 1 := ⟨n - 1, by omega⟩
      have key : ∀ g, k + 1 ≤ g + 1 → natCharsAux (g + 1) (k + 1) [] =
          natChars ((k + 1) / 10) ++ [digitCh ((k + 1) % 10)] := by
        intro g hg
        simp only [natCharsAux, if_neg h]
        rw [natCharsAux_acc, ih ((k + 1) / 10) (by omega) g (by omega)]
      cases f with
      | zero => omega
      | succ f2 =>
        rw [key f2 hf]
        conv_rhs => rw [show natChars (k + 1) = natCharsAux (k + 1) (k + 1) [] from rfl]
        rw [key k (by omega)]

/-- Printing at or above ten splits off the last digit. -/
theorem natChars_ge10 {n : Nat} (h : 10 ≤ n) :
    natChars n = natChars (n / 10) ++ [digitCh (n % 10)] := by
  obtain ⟨k, rfl⟩ : ∃ k, n = k + 1 := ⟨n - 1, by omega⟩
  show natCharsAux (k + 1) (k + 1) [] = _
  simp only [natCharsAux, if_neg (by omega : ¬ k + 1 < 10)]
  rw [natCharsAux_acc, natCharsAux_fuel ((k + 1) / 10) k (by omega)]

/-- A printed number has at least one digit. -/
theorem natChars_ne_nil (n : Nat) : natChars n ≠ [] := by
  by_cases h : n < 10
  · rw [natChars_small h]
    simp
  · rw [natChars_ge10 (by omega)]
    simp

/-- Every printed character is a decimal digit. -/
theorem natChars_digits (n : Nat) : ∀ c ∈ natChars n, c.isDigit = true := by
  induction n using Nat.strong_induction_on with
  | _ n ih =>
    by_cases h : n < 10
    · rw [natChars_small h]
      intro c hc
      rw [List.mem_singleton] at hc
      subst hc
      exact (digitCh_facts n h).1
    · rw [natChars_ge10 (by omega)]
      intro c hc
      rcases List.mem_append.mp hc with h1 | h2
      · exact ih (n / 10) (by omega) c h1
      · rw [List.mem_singleton] at h2
        subst h2
        exact (digitCh_facts (n % 10) (by omega)).1

/-- Folding one more digit multiplies by ten and adds it. -/
theorem digitsToNat_append (a : List Char) (d : Char) :
    digitsToNat (a ++ [d]) = digitsToNat a * 10 + (d.toNat - 48) := by
  unfold digitsToNat
  rw [List.foldl_append]
  rfl

/-- The digit fold recovers the printed number. -/
theorem digitsToNat_natChars (n : Nat) : digitsToNat (natChars n) = n := by
  induction n using Nat.strong_induction_on with
  | _ n ih =>
    by_cases h : n < 10
    · rw [natChars_small h]
      have hd := (digitCh_facts n h).2.1
      show digitsToNat [digitCh n] = n
      unfold digitsToNat
      simpa using hd
    · rw [natChars_ge10 (by omega), digitsToNat_append, ih (n / 10) (by omega)]
      have hd := (digitCh_facts (n % 10) (by omega)).2.1
      omega

/-- A positive number never prints with a leading zero. -/
theorem natChars_head_ne_zero : ∀ n, 1 ≤ n → ∀ d ds, natChars n = d :: ds → d ≠ '0' := by
  intro n
  induction n using Nat.strong_induction_on with
  | _ n ih =>
    intro hn d ds heq
    by_cases h : n < 10
    · rw [natChars_small h] at heq
      injection heq with h1 h2
      subst h1
      intro hz
      exact absurd ((digitCh_facts n h).2.2.2.2.2.2.mp hz) (by omega)
    · obtain ⟨e, es, hee⟩ : ∃ e es, natChars (n / 10) = e :: es := by
        cases he : natChars (n / 10) with
        | nil => exact absurd he (natChars_ne_nil (n / 10))
        | cons e es => exact ⟨e, es, rfl⟩
      rw [natChars_ge10 (by omega), hee] at heq
      injection heq with h1 h2
      subst h1
      exact ih (n / 10) (by omega) (by omega) _ es hee

/-- Splitting a run of characters all satisfying the predicate from a tail
that does not start with one. -/
theorem takeWhile_split (p : Char → Bool) (a b : List Char)
    (ha : ∀ c ∈ a, p c = true) (hb : ∀ c cs, b = c :: cs → p c = false) :
    (a ++ b).takeWhile p = a ∧ (a ++ b).dropWhile p = b := by
  induction a with
  | nil =>
    simp only [List.nil_append]
    cases b with
    | nil => simp
    | cons c bs =>
      have h := hb c bs rfl
      simp [List.takeWhile_cons, List.dropWhile_cons, h]
  | cons x xs ih =>
    have hx := ha x (by simp)
    have ih2 := ih (fun c hc => ha c (by simp [hc]))
    simp [List.takeWhile_cons, List.dropWhile_cons, hx, ih2.1, ih2.2]

/-- The digit parser reads back a printed natural number exactly. -/
theorem parseNatLit_natChars (n : Nat) (rest : List Char) (hr : numSafe rest = true) :
    parseNatLit (natChars n ++ rest) = some (n, rest) := by
  obtain ⟨d, ds, hds⟩ : ∃ d ds, natChars n = d :: ds := by
    cases he : natChars n with
    | nil => exact absurd he (natChars_ne_nil n)
    | cons d ds => exact ⟨d, ds, rfl⟩
  have hb : ∀ c cs, rest = c :: cs → c.isDigit = false := by
    intro c cs hcs
    subst hcs
    simp only [numSafe, Bool.and_eq_true, Bool.not_eq_eq_eq_not, Bool.not_true] at hr
    exact hr.1.1.1
  have hsplit := takeWhile_split Char.isDigit (natChars n) rest (natChars_digits n) hb
  have hguard : ¬(d = '0' ∧ ds ≠ []) := by
    rcases Nat.eq_zero_or_pos n with hz | hp
    · subst hz
      have : ([('0' : Char)] : List Char) = d :: ds := hds
      injection this with h1 h2
      subst h1 h2
      simp
    · have := natChars_head_ne_zero n hp d ds hds
      tauto
  have hfloat : floatHead rest = false := by
    cases rest with
    | nil => rfl
    | cons c cs =>
      simp only [numSafe, Bool.and_eq_true, Bool.not_eq_eq_eq_not, Bool.not_true,
        decide_eq_false_iff_not] at hr
      simp [floatHead, hr.1.1.2, hr.1.2, hr.2]
  have h1 : (natChars n ++ rest).takeWhile Char.isDigit = d :: ds := hsplit.1.trans hds
  simp only [parseNatLit, h1, hsplit.2]
  rw [if_neg hguard, if_neg (by simp [hfloat]), ← hds, digitsToNat_natChars]

/-- The number parser reads back a printed integer exactly. -/
theorem parseNumber_intChars (n : Int) (rest : List Char) (hr : numSafe rest = true) :
    parseNumber (intChars n ++ rest) = some (.num n, rest) := by
  by_cases hneg : n < 0
  · simp only [intChars, if_pos hneg, List.cons_append, parseNumber]
    rw [parseNatLit_natChars n.natAbs rest hr]
    have he : -((n.natAbs : Nat) : Int) = n := by omega
    show some (JValue.num (-((n.natAbs : Nat) : Int)), rest) = some (JValue.num n, rest)
    rw [he]
  · simp only [intChars, if_neg hneg]
    obtain ⟨d, ds, hds⟩ : ∃ d ds, natChars n.natAbs = d :: ds := by
      cases he : natChars n.natAbs with
      | nil => exact absurd he (natChars_ne_nil n.natAbs)
      | cons d ds => exact ⟨d, ds, rfl⟩
    have hd : d ≠ '-' := by
      intro hcontra
      have := natChars_digits n.natAbs d (by rw [hds]; simp)
      rw [hcontra] at this
      exact absurd this (by decide)
    rw [hds]
    simp only [List.cons_append, parseNumber]
    rw [if_neg hd, ← List.cons_append, ← hds, parseNatLit_natChars n.natAbs rest hr]
    have he : ((n.natAbs : Nat) : Int) = n := by omega
    show some (JValue.num ((n.natAbs : Nat) : Int), rest) = some (JValue.num n, rest)
    rw [he]

/-! ## Claim C8: the string escaping reads back exactly -/

/-- Hexadecimal digit characters decode to their value. -/
theorem hexVal_hexCh : ∀ m : Nat, m < 16 → hexVal (hexCh m) = some m := by
  decide

/-- Decoding after the escaping recovers every string body, however exotic. -/
theorem parseStrBody_escBody : ∀ cs r, parseStrBody (escBody cs ++ ('"' :: r)) = some (cs, r) := by
  intro cs
  induction cs with
  | nil => intro r; rfl
  | cons c cs ih =>
    intro r
    show parseStrBody ((escChar c ++ escBody cs) ++ ('"' :: r)) = some (c :: cs, r)
    rw [List.append_assoc]
    by_cases h1 : c = '"'
    · subst h1
      show (match parseStrBody (escBody cs ++ ('"' :: r)) with
        | some (cs2, r2) => some ('"' :: cs2, r2)
        | none => none) = some ('"' :: cs, r)
      rw [ih r]
    · by_cases h2 : c = '\\'
      · subst h2
        show (match parseStrBody (escBody cs ++ ('"' :: r)) with
          | some (cs2, r2) => some ('\\' :: cs2, r2)
          | none => none) = some ('\\' :: cs, r)
        rw [ih r]
      · by_cases h3 : c = '\x08'
        · subst h3
          show (match parseStrBody (escBody cs ++ ('"' :: r)) with
            | some (cs2, r2) => some ('\x08' :: cs2, r2)
            | none => none) = some ('\x08' :: cs, r)
          rw [ih r]
        · by_cases h4 : c = '\x0c'
          · subst h4
            show (match parseStrBody (escBody cs ++ ('"' :: r)) with
              | some (cs2, r2) => some ('\x0c' :: cs2, r2)
              | none => none) = some ('\x0c' :: cs, r)
            rw [ih r]
          · by_cases h5 : c = '\n'
            · subst h5
              show (match parseStrBody (escBody cs ++ ('"' :: r)) with
                | some (cs2, r2) => some ('\n' :: cs2, r2)
                | none => none) = some ('\n' :: cs, r)
              rw [ih r]
            · by_cases h6 : c = '\r'
              · subst h6
                show (match parseStrBody (escBody cs ++ ('"' :: r)) with
                  | some (cs2, r2) => some ('\r' :: cs2, r2)
                  | none => none) = some ('\r' :: cs, r)
                rw [ih r]
              · by_cases h7 : c = '\t'
                · subst h7
                  show (match parseStrBody (escBody cs ++ ('"' :: r)) with
                    | some (cs2, r2) => some ('\t' :: cs2, r2)
                    | none => none) = some ('\t' :: cs, r)
                  rw [ih r]
                · by_cases h8 : c.toNat < 32
                  · have hesc : escChar c =
                        ['\\', 'u', '0', '0', hexCh (c.toNat / 16), hexCh (c.toNat % 16)] := by
                      simp only [escChar, if_neg h1, if_neg h2, if_neg h3, if_neg h4,
                        if_neg h5, if_neg h6, if_neg h7, if_pos h8]
                    rw [hesc]
                    rw [show parseStrBody (['\\', 'u', '0', '0', hexCh (c.toNat / 16),
                          hexCh (c.toNat % 16)] ++ (escBody cs ++ ('"' :: r))) =
                        (match hexVal '0', hexVal '0', hexVal (hexCh (c.toNat / 16)),
                            hexVal (hexCh (c.toNat % 16)) with
                         | some a, some b, some c2, some d =>
                           let n := ((a * 16 + b) * 16 + c2) * 16 + d
                           if h : n.isValidChar then
                             match parseStrBody (escBody cs ++ ('"' :: r)) with
                             | some (cs2, r2) => some (Char.ofNatAux n h :: cs2, r2)
                             | none => none
                           else none
                         | _, _, _, _ => none) from rfl]
                    rw [hexVal_hexCh (c.toNat / 16) (by omega),
                      hexVal_hexCh (c.toNat % 16) (by omega)]
                    show (if h : (((0 * 16 + 0) * 16 + c.toNat / 16) * 16 +
                          c.toNat % 16).isValidChar then
                        match parseStrBody (escBody cs ++ ('"' :: r)) with
                        | some (cs2, r2) =>
                          some (Char.ofNatAux (((0 * 16 + 0) * 16 + c.toNat / 16) * 16 +
                            c.toNat % 16) h :: cs2, r2)
                        | none => none
                      else none) = some (c :: cs, r)
                    have hn : ((0 * 16 + 0) * 16 + c.toNat / 16) * 16 + c.toNat % 16 =
                        c.toNat := by omega
                    simp only [hn]
                    have hv : (c.toNat).isValidChar := by
                      unfold Nat.isValidChar
                      omega
                    rw [dif_pos hv, ih r]
                    rfl
                  · have hesc : escChar c = [c] := by
                      simp only [escChar, if_neg h1, if_neg h2, if_neg h3, if_neg h4,
                        if_neg h5, if_neg h6, if_neg h7, if_neg h8]
                    rw [hesc]
                    show parseStrBody (c :: (escBody cs ++ ('"' :: r))) = some (c :: cs, r)
                    simp only [parseStrBody]
                    rw [if_neg h1, if_neg h2, if_neg h8, ih r]

/-! ## Claim C8: the shape of serialized text -/

/-- A second table of digit-character facts: what a digit cannot be. -/
theorem digitCh_ne : ∀ m : Nat, m < 10 →
    (digitCh m) ≠ '"' ∧ (digitCh m) ≠ '[' ∧ (digitCh m) ≠ '{' ∧
    (digitCh m) ≠ 'n' ∧ (digitCh m) ≠ 't' ∧ (digitCh m) ≠ 'f' ∧
    (digitCh m) ≠ ']' ∧ (digitCh m) ≠ '}' ∧ (digitCh m) ≠ ',' := by
  decide

/-- Every character of a printed number is some digit character. -/
theorem natChars_mem_digitCh (n : Nat) :
    ∀ c ∈ natChars n, ∃ m, m < 10 ∧ c = digitCh m := by
  induction n using Nat.strong_induction_on with
  | _ n ih =>
    by_cases h : n < 10
    · rw [natChars_small h]
      intro c hc
      rw [List.mem_singleton] at hc
      exact ⟨n, h, hc⟩
    · rw [natChars_ge10 (by omega)]
      intro c hc
      rcases List.mem_append.mp hc with h1 | h2
      · exact ih (n / 10) (by omega) c h1
      · rw [List.mem_singleton] at h2
        exact ⟨n % 10, by omega, h2⟩

/-- A printed number ends in the digit of its remainder. -/
theorem natChars_last (n : Nat) : ∃ t, natChars n = t ++ [digitCh (n % 10)] := by
  by_cases h : n < 10
  · rw [natChars_small h]
    exact ⟨[], by rw [Nat.mod_eq_of_lt h]; simp⟩
  · exact ⟨natChars (n / 10), natChars_ge10 (by omega)⟩

/-- Serialized array tails end with the closing bracket. -/
theorem dumpArrTail_last (l : List JValue) : ∃ t, dumpArrTail l = t ++ [']'] := by
  induction l with
  | nil => exact ⟨[], rfl⟩
  | cons x xs ih =>
    obtain ⟨t, ht⟩ := ih
    refine ⟨',' :: ' ' :: (dumpVal x ++ t), ?_⟩
    show ',' :: ' ' :: (dumpVal x ++ dumpArrTail xs) = _
    rw [ht]
    simp

/-- Serialized object tails end with the closing brace. -/
theorem dumpObjTail_last (l : List (String × JValue)) : ∃ t, dumpObjTail l = t ++ ['}'] := by
  induction l with
  | nil => exact ⟨[], rfl⟩
  | cons m ms ih =>
    obtain ⟨t, ht⟩ := ih
    refine ⟨',' :: ' ' :: (dumpMember m ++ t), ?_⟩
    show ',' :: ' ' :: (dumpMember m ++ dumpObjTail ms) = _
    rw [ht]
    simp

/-- The head of a serialized value: never whitespace, never a closer or a
separator, never a backtick. -/
theorem dumpVal_head (v : JValue) : ∃ hc ht, dumpVal v = hc :: ht ∧
    isJsonWs hc = false ∧ isPyWs hc = false ∧
    hc ≠ ']' ∧ hc ≠ '}' ∧ hc ≠ ',' ∧ hc ≠ '`' := by
  cases v with
  | null => exact ⟨'n', _, rfl, by decide, by decide, by decide, by decide, by decide, by decide⟩
  | bool b =>
    cases b with
    | true => exact ⟨'t', _, rfl, by decide, by decide, by decide, by decide, by decide, by decide⟩
    | false => exact ⟨'f', _, rfl, by decide, by decide, by decide, by decide, by decide, by decide⟩
  | num n =>
    show ∃ hc ht, intChars n = hc :: ht ∧ _
    by_cases hneg : n < 0
    · simp only [intChars, if_pos hneg]
      exact ⟨'-', _, rfl, by decide, by decide, by decide, by decide, by decide, by decide⟩
    · simp only [intChars, if_neg hneg]
      obtain ⟨d, ds, hds⟩ : ∃ d ds, natChars n.natAbs = d :: ds := by
        cases he : natChars n.natAbs with
        | nil => exact absurd he (natChars_ne_nil n.natAbs)
        | cons d ds => exact ⟨d, ds, rfl⟩
      obtain ⟨m, hm, hdm⟩ := natChars_mem_digitCh n.natAbs d (by rw [hds]; simp)
      subst hdm
      have hf := digitCh_facts m hm
      have hn := digitCh_ne m hm
      exact ⟨digitCh m, ds, hds, hf.2.2.1, hf.2.2.2.1, hn.2.2.2.2.2.2.1,
        hn.2.2.2.2.2.2.2.1, hn.2.2.2.2.2.2.2.2, hf.2.2.2.2.2.1⟩
  | str s =>
    exact ⟨'"', _, rfl, by decide, by decide, by decide, by decide, by decide, by decide⟩
  | arr l =>
    cases l with
    | nil => exact ⟨'[', _, rfl, by decide, by decide, by decide, by decide, by decide, by decide⟩
    | cons x xs =>
      exact ⟨'[', _, rfl, by decide, by decide, by decide, by decide, by decide, by decide⟩
  | obj l =>
    cases l with
    | nil => exact ⟨'{', _, rfl, by decide, by decide, by decide, by decide, by decide, by decide⟩
    | cons m ms =>
      exact ⟨'{', _, rfl, by decide, by decide, by decide, by decide, by decide, by decide⟩

/-- The last character of a serialized value is never Python whitespace. -/
theorem dumpVal_last (v : JValue) : ∃ t c, dumpVal v = t ++ [c] ∧ isPyWs c = false := by
  cases v with
  | null => exact ⟨['n', 'u', 'l'], 'l', rfl, by decide⟩
  | bool b =>
    cases b with
    | true => exact ⟨['t', 'r', 'u'], 'e', rfl, by decide⟩
    | false => exact ⟨['f', 'a', 'l', 's'], 'e', rfl, by decide⟩
  | num n =>
    show ∃ t c, intChars n = t ++ [c] ∧ _
    obtain ⟨t, ht⟩ := natChars_last n.natAbs
    have hf := digitCh_facts (n.natAbs % 10) (by omega)
    by_cases hneg : n < 0
    · simp only [intChars, if_pos hneg]
      exact ⟨'-' :: t, digitCh (n.natAbs % 10), by rw [ht]; simp, hf.2.2.2.1⟩
    · simp only [intChars, if_neg hneg]
      exact ⟨t, digitCh (n.natAbs % 10), ht, hf.2.2.2.1⟩
  | str s =>
    exact ⟨'"' :: escBody s.data, '"', by show '"' :: (escBody s.data ++ ['"']) = _; simp,
      by decide⟩
  | arr l =>
    cases l with
    | nil => exact ⟨['['], ']', rfl, by decide⟩
    | cons x xs =>
      obtain ⟨t, ht⟩ := dumpArrTail_last xs
      refine ⟨'[' :: (dumpVal x ++ t), ']', ?_, by decide⟩
      show '[' :: (dumpVal x ++ dumpArrTail xs) = _
      rw [ht]
      simp
  | obj l =>
    cases l with
    | nil => exact ⟨['{'], '}', rfl, by decide⟩
    | cons m ms =>
      obtain ⟨t, ht⟩ := dumpObjTail_last ms
      refine ⟨'{' :: (dumpMember m ++ t), '}', ?_, by decide⟩
      show '{' :: (dumpMember m ++ dumpObjTail ms) = _
      rw [ht]
      simp

/-- Serialized values are never empty. -/
theorem dumpVal_length_pos (v : JValue) : 1 ≤ (dumpVal v).length := by
  obtain ⟨hc, ht, he, _⟩ := dumpVal_head v
  rw [he]
  simp

/-- Serialized array tails are never empty. -/
theorem dumpArrTail_length_pos (l : List JValue) : 1 ≤ (dumpArrTail l).length := by
  obtain ⟨t, ht⟩ := dumpArrTail_last l
  rw [ht]
  simp

/-- Serialized object tails are never empty. -/
theorem dumpObjTail_length_pos (l : List (String × JValue)) : 1 ≤ (dumpObjTail l).length := by
  obtain ⟨t, ht⟩ := dumpObjTail_last l
  rw [ht]
  simp

/-- A serialized member is at least four characters longer than its value:
two quotes, a colon and a space. -/
theorem dumpMember_length (m : String × JValue) :
    (dumpVal m.2).length + 4 ≤ (dumpMember m).length := by
  obtain ⟨k, v⟩ := m
  show (dumpVal v).length + 4 ≤ (dumpStr k ++ (':' :: ' ' :: dumpVal v)).length
  simp [dumpStr]

mutual

/-- The fuel measure of a value is within one of its serialized length. -/
theorem msize_le_len : ∀ v : JValue, msize v ≤ (dumpVal v).length + 1
  | .null => by simp [msize, dumpVal]
  | .bool b => by cases b <;> simp [msize, dumpVal]
  | .num n => by
    have := dumpVal_length_pos (.num n)
    simp only [msize]
    omega
  | .str s => by
    have := dumpVal_length_pos (.str s)
    simp only [msize]
    omega
  | .arr l => by
    cases l with
    | nil => simp [msize, needTail, dumpVal]
    | cons x xs =>
      have h1 := msize_le_len x
      have h2 := needTail_le_len xs
      have h3 := dumpVal_length_pos x
      have h4 := dumpArrTail_length_pos xs
      show 1 + needTail (x :: xs) ≤ ('[' :: (dumpVal x ++ dumpArrTail xs)).length + 1
      simp only [needTail, List.length_cons, List.length_append]
      omega
  | .obj l => by
    cases l with
    | nil => simp [msize, needMTail, dumpVal]
    | cons m ms =>
      have h1 := msize_le_len m.2
      have h2 := needMTail_le_len ms
      have h3 := dumpMember_length m
      have h4 := dumpObjTail_length_pos ms
      show 1 + needMTail (m :: ms) ≤ ('{' :: (dumpMember m ++ dumpObjTail ms)).length + 1
      simp only [needMTail, List.length_cons, List.length_append]
      omega

/-- The array fuel measure is within the serialized tail length. -/
theorem needTail_le_len : ∀ l : List JValue, needTail l ≤ (dumpArrTail l).length
  | [] => by simp [needTail, dumpArrTail]
  | x :: xs => by
    have h1 := msize_le_len x
    have h2 := needTail_le_len xs
    have h3 := dumpVal_length_pos x
    have h4 := dumpArrTail_length_pos xs
    show 1 + max (msize x) (needTail xs) ≤ (',' :: ' ' :: (dumpVal x ++ dumpArrTail xs)).length
    simp only [List.length_cons, List.length_append]
    omega

/-- The object fuel measure is within the serialized tail length. -/
theorem needMTail_le_len : ∀ l : List (String × JValue), needMTail l ≤ (dumpObjTail l).length
  | [] => by simp [needMTail, dumpObjTail]
  | m :: ms => by
    have h1 := msize_le_len m.2
    have h2 := needMTail_le_len ms
    have h3 := dumpMember_length m
    have h4 := dumpObjTail_length_pos ms
    show 1 + max (1 + msize m.2) (needMTail ms) ≤
      (',' :: ' ' :: (dumpMember m ++ dumpObjTail ms)).length
    simp only [List.length_cons, List.length_append]
    omega

end

/-! ## Claim C8: serialized fence-free values survive the cleaning -/

/-- The leading tick run never exceeds the length. -/
theorem tickRun_le_length (l : List Char) : tickRun l ≤ l.length := by
  induction l with
  | nil => simp [tickRun]
  | cons c rest ih =>
    by_cases h : c = '`' <;> (simp [tickRun, h]; try omega)

/-- How the leading tick run composes over append. -/
theorem tickRun_append (a b : List Char) :
    tickRun (a ++ b) =
      if tickRun a = a.length then a.length + tickRun b else tickRun a := by
  induction a with
  | nil => simp [tickRun]
  | cons c rest ih =>
    by_cases h : c = '`'
    · subst h
      have e1 : tickRun ('`' :: (rest ++ b)) = tickRun (rest ++ b) + 1 := by simp [tickRun]
      have e2 : tickRun ('`' :: rest) = tickRun rest + 1 := by simp [tickRun]
      simp only [List.cons_append, e1, e2, ih, List.length_cons]
      by_cases h2 : tickRun rest = rest.length
      · rw [if_pos h2, if_pos (by omega)]
        omega
      · rw [if_neg h2, if_neg (by omega)]
    · have h0 : tickRun (c :: (rest ++ b)) = 0 := by simp [tickRun, h]
      have h1 : tickRun (c :: rest) = 0 := by simp [tickRun, h]
      simp only [List.cons_append, h0, h1]
      rw [if_neg (by simp)]

/-- A fence cannot start at a character that is not a backtick. -/
theorem fence3_cons_ne {c : Char} (h : c ≠ '`') (l : List Char) :
    fence3 (c :: l) = fence3 l := by
  simp [fence3, h]

/-- Splitting a fence test at the head backtick. -/
theorem fence3_cons_tick (l : List Char) :
    fence3 ('`' :: l) = (decide (2 ≤ tickRun l) || fence3 l) := by
  simp [fence3]

/-- Text without backticks has no fence and no leading run. -/
theorem tickFree_fence3 (l : List Char) (h : ∀ x ∈ l, x ≠ '`') :
    fence3 l = false ∧ tickRun l = 0 := by
  induction l with
  | nil => exact ⟨rfl, rfl⟩
  | cons c rest ih =>
    have hc := h c (by simp)
    have ih2 := ih (fun x hx => h x (by simp [hx]))
    refine ⟨?_, by simp [tickRun, hc]⟩
    rw [fence3_cons_ne hc, ih2.1]

/-- Appending fence-free text whose right part has no leading run keeps the
whole fence-free. -/
theorem fence3_append {a b : List Char} (ha : fence3 a = false) (hb : fence3 b = false)
    (htb : tickRun b = 0) : fence3 (a ++ b) = false := by
  have htr : ∀ x : List Char, tickRun (x ++ b) = tickRun x := by
    intro x
    rw [tickRun_append]
    by_cases h : tickRun x = x.length
    · rw [if_pos h]
      omega
    · rw [if_neg h]
  induction a with
  | nil => simpa using hb
  | cons c rest ih =>
    by_cases h : c = '`'
    · subst h
      rw [fence3_cons_tick] at ha
      simp only [Bool.or_eq_false_iff, decide_eq_false_iff_not] at ha
      show fence3 ('`' :: (rest ++ b)) = false
      rw [fence3_cons_tick]
      simp only [Bool.or_eq_false_iff, decide_eq_false_iff_not]
      exact ⟨by rw [htr rest]; exact ha.1, ih ha.2⟩
    · rw [fence3_cons_ne h] at ha
      show fence3 (c :: (rest ++ b)) = false
      rw [fence3_cons_ne h]
      exact ih ha

/-- Appending backtick-free text on the left keeps fence-free text
fence-free. -/
theorem fence3_append_tickFree {a b : List Char} (ha : ∀ x ∈ a, x ≠ '`')
    (hb : fence3 b = false) : fence3 (a ++ b) = false := by
  induction a with
  | nil => simpa using hb
  | cons c rest ih =>
    have hc := ha c (by simp)
    show fence3 (c :: (rest ++ b)) = false
    rw [fence3_cons_ne hc]
    exact ih (fun x hx => ha x (by simp [hx]))

/-- Hexadecimal digit characters are not backticks. -/
theorem hexCh_ne_tick : ∀ m : Nat, m < 16 → hexCh m ≠ '`' := by
  decide

/-- Escaping a character other than a backtick emits no backtick. -/
theorem escChar_tickFree {c : Char} (h : c ≠ '`') : ∀ x ∈ escChar c, x ≠ '`' := by
  intro x hx
  by_cases h1 : c = '"'
  · subst h1
    rw [show escChar '"' = ['\\', '"'] from by decide] at hx
    fin_cases hx <;> decide
  · by_cases h2 : c = '\\'
    · subst h2
      rw [show escChar '\\' = ['\\', '\\'] from by decide] at hx
      fin_cases hx <;> decide
    · by_cases h3 : c = '\x08'
      · subst h3
        rw [show escChar '\x08' = ['\\', 'b'] from by decide] at hx
        fin_cases hx <;> decide
      · by_cases h4 : c = '\x0c'
        · subst h4
          rw [show escChar '\x0c' = ['\\', 'f'] from by decide] at hx
          fin_cases hx <;> decide
        · by_cases h5 : c = '\n'
          · subst h5
            rw [show escChar '\n' = ['\\', 'n'] from by decide] at hx
            fin_cases hx <;> decide
          · by_cases h6 : c = '\r'
            · subst h6
              rw [show escChar '\r' = ['\\', 'r'] from by decide] at hx
              fin_cases hx <;> decide
            · by_cases h7 : c = '\t'
              · subst h7
                rw [show escChar '\t' = ['\\', 't'] from by decide] at hx
                fin_cases hx <;> decide
              · by_cases h8 : c.toNat < 32
                · have hesc : escChar c =
                      ['\\', 'u', '0', '0', hexCh (c.toNat / 16), hexCh (c.toNat % 16)] := by
                    simp only [escChar, if_neg h1, if_neg h2, if_neg h3, if_neg h4,
                      if_neg h5, if_neg h6, if_neg h7, if_pos h8]
                  rw [hesc] at hx
                  fin_cases hx
                  · decide
                  · decide
                  · decide
                  · decide
                  · exact hexCh_ne_tick _ (by omega)
                  · exact hexCh_ne_tick _ (by omega)
                · have hesc : escChar c = [c] := by
                    simp only [escChar, if_neg h1, if_neg h2, if_neg h3, if_neg h4,
                      if_neg h5, if_neg h6, if_neg h7, if_neg h8]
                  rw [hesc] at hx
                  rw [List.mem_singleton] at hx
                  subst hx
                  exact h

/-- The escape of a character other than a backtick starts with something
other than a backtick. -/
theorem escChar_head {c : Char} (h : c ≠ '`') :
    ∃ e es, escChar c = e :: es ∧ e ≠ '`' := by
  by_cases h1 : c = '"'
  · subst h1; exact ⟨'\\', _, rfl, by decide⟩
  · by_cases h2 : c = '\\'
    · subst h2; exact ⟨'\\', _, rfl, by decide⟩
    · by_cases h3 : c = '\x08'
      · subst h3; exact ⟨'\\', _, rfl, by decide⟩
      · by_cases h4 : c = '\x0c'
        · subst h4; exact ⟨'\\', _, rfl, by decide⟩
        · by_cases h5 : c = '\n'
          · subst h5; exact ⟨'\\', _, rfl, by decide⟩
          · by_cases h6 : c = '\r'
            · subst h6; exact ⟨'\\', _, rfl, by decide⟩
            · by_cases h7 : c = '\t'
              · subst h7; exact ⟨'\\', _, rfl, by decide⟩
              · by_cases h8 : c.toNat < 32
                · refine ⟨'\\', ['u', '0', '0', hexCh (c.toNat / 16), hexCh (c.toNat % 16)],
                    ?_, by decide⟩
                  simp only [escChar, if_neg h1, if_neg h2, if_neg h3, if_neg h4,
                    if_neg h5, if_neg h6, if_neg h7, if_pos h8]
                · refine ⟨c, [], ?_, h⟩
                  simp only [escChar, if_neg h1, if_neg h2, if_neg h3, if_neg h4,
                    if_neg h5, if_neg h6, if_neg h7, if_neg h8]

/-- Escaping preserves fence-freedom and the leading backtick run. -/
theorem escBody_fence3 : ∀ cs, fence3 cs = false →
    fence3 (escBody cs) = false ∧ tickRun (escBody cs) = tickRun cs := by
  intro cs
  induction cs with
  | nil => exact fun _ => ⟨rfl, rfl⟩
  | cons c cs2 ih =>
    intro hf
    by_cases h : c = '`'
    · subst h
      rw [fence3_cons_tick] at hf
      simp only [Bool.or_eq_false_iff, decide_eq_false_iff_not] at hf
      have ih2 := ih hf.2
      have hesc : escChar '`' = ['`'] := by decide
      have he : escBody ('`' :: cs2) = '`' :: escBody cs2 := by
        show escChar '`' ++ escBody cs2 = _
        rw [hesc]
        rfl
      rw [he]
      constructor
      · rw [fence3_cons_tick]
        simp only [Bool.or_eq_false_iff, decide_eq_false_iff_not]
        exact ⟨by rw [ih2.2]; exact hf.1, ih2.1⟩
      · simp [tickRun, ih2.2]
    · rw [fence3_cons_ne h] at hf
      have ih2 := ih hf
      obtain ⟨e, es, hee, hne⟩ := escChar_head h
      constructor
      · show fence3 (escChar c ++ escBody cs2) = false
        exact fence3_append_tickFree (escChar_tickFree h) ih2.1
      · show tickRun (escChar c ++ escBody cs2) = tickRun (c :: cs2)
        rw [hee]
        simp only [List.cons_append]
        have e1 : tickRun (e :: (es ++ escBody cs2)) = 0 := by simp [tickRun, hne]
        have e2 : tickRun (c :: cs2) = 0 := by simp [tickRun, h]
        rw [e1, e2]

/-- A serialized string literal of fence-free text is fence-free. -/
theorem fence3_dumpStr (s : String) (h : fence3 s.data = false) :
    fence3 (dumpStr s) = false := by
  show fence3 ('"' :: (escBody s.data ++ ['"'])) = false
  rw [fence3_cons_ne (by decide)]
  exact fence3_append (escBody_fence3 s.data h).1 (by decide) (by decide)

/-- Serialized array tails have no leading backtick run. -/
theorem tickRun_dumpArrTail (l : List JValue) : tickRun (dumpArrTail l) = 0 := by
  cases l with
  | nil => rfl
  | cons x xs => simp [dumpArrTail, tickRun]

/-- Serialized object tails have no leading backtick run. -/
theorem tickRun_dumpObjTail (l : List (String × JValue)) : tickRun (dumpObjTail l) = 0 := by
  cases l with
  | nil => rfl
  | cons m ms => simp [dumpObjTail, tickRun]

mutual

/-- The serialization of a fence-free value is fence-free. -/
theorem fence3_dumpVal : ∀ v : JValue, ffVal v = true → fence3 (dumpVal v) = false
  | .null => fun _ => by decide
  | .bool b => fun _ => by cases b <;> decide
  | .num n => fun _ => by
    refine (tickFree_fence3 (intChars n) ?_).1
    intro x hx
    by_cases hneg : n < 0
    · simp only [intChars, if_pos hneg] at hx
      rcases List.mem_cons.mp hx with h1 | h1
      · subst h1; decide
      · obtain ⟨m, hm, hdm⟩ := natChars_mem_digitCh n.natAbs x h1
        subst hdm
        exact (digitCh_facts m hm).2.2.2.2.2.1
    · simp only [intChars, if_neg hneg] at hx
      obtain ⟨m, hm, hdm⟩ := natChars_mem_digitCh n.natAbs x hx
      subst hdm
      exact (digitCh_facts m hm).2.2.2.2.2.1
  | .str s => fun h => by
    have hf : fence3 s.data = false := by
      simpa [ffVal] using h
    exact fence3_dumpStr s hf
  | .arr l => fun h => by
    cases l with
    | nil => decide
    | cons x xs =>
      have hff : ffVal x = true ∧ ffArr xs = true := by
        simpa [ffVal, ffArr, Bool.and_eq_true] using h
      show fence3 ('[' :: (dumpVal x ++ dumpArrTail xs)) = false
      rw [fence3_cons_ne (by decide)]
      exact fence3_append (fence3_dumpVal x hff.1) (fence3_dumpArrTail xs hff.2)
        (tickRun_dumpArrTail xs)
  | .obj l => fun h => by
    cases l with
    | nil => decide
    | cons m ms =>
      have hff : (!fence3 m.1.data && ffVal m.2) = true ∧ ffObj ms = true := by
        have : ffObj (m :: ms) = true := by simpa [ffVal] using h
        simp only [ffObj, Bool.and_eq_true] at this
        exact ⟨by simp [this.1.1, this.1.2], this.2⟩
      show fence3 ('{' :: (dumpMember m ++ dumpObjTail ms)) = false
      rw [fence3_cons_ne (by decide)]
      exact fence3_append (fence3_dumpMember m hff.1) (fence3_dumpObjTail ms hff.2)
        (tickRun_dumpObjTail ms)

/-- The serialization of fence-free array elements is fence-free. -/
theorem fence3_dumpArrTail : ∀ l : List JValue, ffArr l = true →
    fence3 (dumpArrTail l) = false
  | [] => fun _ => by decide
  | x :: xs => fun h => by
    have hff : ffVal x = true ∧ ffArr xs = true := by
      simpa [ffArr, Bool.and_eq_true] using h
    show fence3 (',' :: ' ' :: (dumpVal x ++ dumpArrTail xs)) = false
    rw [fence3_cons_ne (by decide), fence3_cons_ne (by decide)]
    exact fence3_append (fence3_dumpVal x hff.1) (fence3_dumpArrTail xs hff.2)
      (tickRun_dumpArrTail xs)

/-- The serialization of a fence-free member is fence-free. -/
theorem fence3_dumpMember : ∀ m : String × JValue,
    (!fence3 m.1.data && ffVal m.2) = true → fence3 (dumpMember m) = false
  | (k, v) => fun h => by
    simp only [Bool.and_eq_true, Bool.not_eq_eq_eq_not, Bool.not_true] at h
    show fence3 (dumpStr k ++ (':' :: ' ' :: dumpVal v)) = false
    refine fence3_append (fence3_dumpStr k h.1) ?_ (by simp [tickRun])
    rw [fence3_cons_ne (by decide), fence3_cons_ne (by decide)]
    exact fence3_dumpVal v h.2

/-- The serialization of fence-free members is fence-free. -/
theorem fence3_dumpObjTail : ∀ l : List (String × JValue), ffObj l = true →
    fence3 (dumpObjTail l) = false
  | [] => fun _ => by decide
  | m :: ms => fun h => by
    simp only [ffObj, Bool.and_eq_true] at h
    show fence3 (',' :: ' ' :: (dumpMember m ++ dumpObjTail ms)) = false
    rw [fence3_cons_ne (by decide), fence3_cons_ne (by decide)]
    exact fence3_append (fence3_dumpMember m (by simp [h.1.1, h.1.2]))
      (fence3_dumpObjTail ms h.2) (tickRun_dumpObjTail ms)

end

/-- A fence test succeeds on text starting with three backticks. -/
theorem fence3_three_ticks (l : List Char) : fence3 ('`' :: '`' :: '`' :: l) = true := by
  rw [fence3_cons_tick]
  have : tickRun ('`' :: '`' :: l) = tickRun l + 2 := by simp [tickRun]
  simp [this]

/-- The fence-removing substitution leaves fence-free text unchanged. -/
theorem cleanSub_id : ∀ l : List Char, fence3 l = false → cleanSub l = l := by
  intro l
  induction l using cleanSub.induct with
  | case1 rest ih =>
    intro h
    rw [fence3_three_ticks] at h
    exact absurd h (by simp)
  | case2 rest ih =>
    intro h
    rw [fence3_three_ticks] at h
    exact absurd h (by simp)
  | case3 c rest h1 h2 ih =>
    intro h
    have hrest : fence3 rest = false := by
      have h0 : ((decide (c = '`') && decide (2 ≤ tickRun rest)) || fence3 rest) = false := h
      simp only [Bool.or_eq_false_iff] at h0
      exact h0.2
    show cleanSub (c :: rest) = c :: rest
    have step : cleanSub (c :: rest) = c :: cleanSub rest := by
      conv_lhs => rw [cleanSub.eq_def]
      split
      · rename_i heq
        rw [heq, fence3_three_ticks] at h
        exact absurd h (by simp)
      · rename_i heq
        rw [heq, fence3_three_ticks] at h
        exact absurd h (by simp)
      · rename_i heq
        injection heq with e1 e2
        rw [e1, e2]
      · rename_i heq
        exact absurd heq (by simp)
    rw [step, ih hrest]
  | case4 =>
    intro h
    rfl

/-- The backtick replacement leaves fence-free text unchanged. -/
theorem replaceTicks_id : ∀ l : List Char, fence3 l = false → replaceTicks l = l := by
  intro l
  induction l using replaceTicks.induct with
  | case1 rest ih =>
    intro h
    rw [fence3_three_ticks] at h
    exact absurd h (by simp)
  | case2 c rest h1 ih =>
    intro h
    have hrest : fence3 rest = false := by
      have h0 : ((decide (c = '`') && decide (2 ≤ tickRun rest)) || fence3 rest) = false := h
      simp only [Bool.or_eq_false_iff] at h0
      exact h0.2
    show replaceTicks (c :: rest) = c :: rest
    have step : replaceTicks (c :: rest) = c :: replaceTicks rest := by
      conv_lhs => rw [replaceTicks.eq_def]
      split
      · rename_i heq
        rw [heq, fence3_three_ticks] at h
        exact absurd h (by simp)
      · rename_i heq
        injection heq with e1 e2
        rw [e1, e2]
      · rename_i heq
        exact absurd heq (by simp)
    rw [step, ih hrest]
  | case3 =>
    intro h
    rfl

/-- A nonempty list splits off its last element. -/
theorem cons_eq_concat (c : Char) (t : List Char) : ∃ t2 c2, c :: t = t2 ++ [c2] := by
  induction t generalizing c with
  | nil => exact ⟨[], c, rfl⟩
  | cons d t ih =>
    obtain ⟨t2, c2, he⟩ := ih d
    exact ⟨c :: t2, c2, by rw [List.cons_append, ← he]⟩

/-- Stripping leaves a list with safe ends unchanged. -/
theorem pyStrip_id (p : Char → Bool) (l : List Char)
    (hh : ∀ c t, l = c :: t → p c = false)
    (hl : ∀ t c, l = t ++ [c] → p c = false) : pyStrip p l = l := by
  cases hc : l with
  | nil => rfl
  | cons c t =>
    have h1 : pyLstrip p (c :: t) = c :: t := by
      unfold pyLstrip
      rw [List.dropWhile_cons, hh c t hc]
      simp
    obtain ⟨t2, c2, he⟩ := cons_eq_concat c t
    unfold pyStrip
    rw [h1, he, pyRstrip_last p t2 c2 (hl t2 c2 (hc ▸ he))]

/-- The whole cleaning step is the identity on the serialization of a
fence-free value. -/
theorem clean_dumpVal (v : JValue) (hf : ffVal v = true) :
    clean (dumpVal v) = dumpVal v := by
  unfold clean
  rw [cleanSub_id (dumpVal v) (fence3_dumpVal v hf),
    replaceTicks_id (dumpVal v) (fence3_dumpVal v hf)]
  refine pyStrip_id isPyWs (dumpVal v) ?_ ?_
  · intro c t he
    obtain ⟨hc, ht, he2, hf1, hf2, _⟩ := dumpVal_head v
    rw [he] at he2
    injection he2 with e1 e2
    rw [← e1] at hf2
    exact hf2
  · intro t c he
    obtain ⟨t2, c2, he2, hp⟩ := dumpVal_last v
    rw [he] at he2
    have : c = c2 := by
      have := congrArg (fun l => l.getLast?) he2
      simpa using this
    rw [this]
    exact hp

/-! ## Claim C8: decoder dicts have duplicate-free keys -/

/-- Setting a fresh key appends it. -/
theorem dictSet_append (l : List (String × JValue)) (k : String) (v : JValue)
    (h : ¬ k ∈ l.map Prod.fst) : dictSet l k v = l ++ [(k, v)] := by
  induction l with
  | nil => rfl
  | cons m rest ih =>
    obtain ⟨k2, v2⟩ := m
    simp only [List.map_cons, List.mem_cons] at h
    push_neg at h
    show dictSet ((k2, v2) :: rest) k v = _
    rw [show dictSet ((k2, v2) :: rest) k v =
        if k2 = k then (k, v) :: rest else (k2, v2) :: dictSet rest k v from rfl]
    rw [if_neg (fun he => h.1 he.symm), ih h.2]
    simp

/-- The keys after a dict set: unchanged for an old key, appended for a new. -/
theorem dictSet_keys (l : List (String × JValue)) (k : String) (v : JValue) :
    (dictSet l k v).map Prod.fst =
      if k ∈ l.map Prod.fst then l.map Prod.fst else l.map Prod.fst ++ [k] := by
  induction l with
  | nil => simp [dictSet]
  | cons m rest ih =>
    obtain ⟨k2, v2⟩ := m
    by_cases h : k2 = k
    · subst h
      simp [dictSet]
    · rw [show dictSet ((k2, v2) :: rest) k v =
          if k2 = k then (k, v) :: rest else (k2, v2) :: dictSet rest k v from rfl]
      rw [if_neg h]
      by_cases h2 : k ∈ rest.map Prod.fst
      · simp only [List.map_cons, ih, if_pos h2]
        rw [if_pos (by simp [h2])]
      · simp only [List.map_cons, ih, if_neg h2]
        rw [if_neg (by simp [h2]; exact fun he => h he.symm)]
        simp

/-- Appending a fresh key keeps keys duplicate-free. -/
theorem keysNodup_concat (ks : List String) (k : String)
    (h1 : keysNodup ks = true) (h2 : ¬ k ∈ ks) : keysNodup (ks ++ [k]) = true := by
  induction ks with
  | nil => simp [keysNodup]
  | cons k2 ks2 ih =>
    simp only [keysNodup, Bool.and_eq_true, Bool.not_eq_eq_eq_not, Bool.not_true,
      decide_eq_false_iff_not] at h1
    simp only [List.mem_cons] at h2
    push_neg at h2
    simp only [List.cons_append, keysNodup, Bool.and_eq_true, Bool.not_eq_eq_eq_not,
      Bool.not_true, decide_eq_false_iff_not]
    refine ⟨?_, ih h1.2 h2.2⟩
    intro hc
    rcases List.mem_append.mp hc with hc2 | hc2
    · exact h1.1 hc2
    · rw [List.mem_singleton] at hc2
      exact h2.1 hc2.symm

/-- A dict set keeps keys duplicate-free. -/
theorem dictSet_keysNodup (l : List (String × JValue)) (k : String) (v : JValue)
    (h : keysNodup (l.map Prod.fst) = true) :
    keysNodup ((dictSet l k v).map Prod.fst) = true := by
  rw [dictSet_keys]
  by_cases h2 : k ∈ l.map Prod.fst
  · rw [if_pos h2]
    exact h
  · rw [if_neg h2]
    exact keysNodup_concat _ _ h h2

/-- A dict set keeps every stored value well-formed. -/
theorem dictSet_wfObj (l : List (String × JValue)) (k : String) (v : JValue)
    (hl : wfObj l = true) (hv : wfVal v = true) : wfObj (dictSet l k v) = true := by
  induction l with
  | nil => simp [dictSet, wfObj, hv]
  | cons m rest ih =>
    obtain ⟨k2, v2⟩ := m
    simp only [wfObj, Bool.and_eq_true] at hl
    rw [show dictSet ((k2, v2) :: rest) k v =
        if k2 = k then (k, v) :: rest else (k2, v2) :: dictSet rest k v from rfl]
    by_cases h : k2 = k
    · rw [if_pos h]
      simp [wfObj, hv, hl.2]
    · rw [if_neg h]
      simp [wfObj, hl.1, ih hl.2]

/-- Folding members into a dict keeps keys duplicate-free and values
well-formed. -/
theorem objBuild_wf (ms : List (String × JValue)) :
    ∀ acc, keysNodup (acc.map Prod.fst) = true → wfObj acc = true →
      (∀ m ∈ ms, wfVal m.2 = true) →
      keysNodup ((objBuild acc ms).map Prod.fst) = true ∧ wfObj (objBuild acc ms) = true := by
  induction ms with
  | nil => exact fun acc h1 h2 _ => ⟨h1, h2⟩
  | cons m rest ih =>
    intro acc h1 h2 h3
    obtain ⟨k, v⟩ := m
    show keysNodup ((objBuild (dictSet acc k v) rest).map Prod.fst) = true ∧ _
    exact ih (dictSet acc k v) (dictSet_keysNodup acc k v h1)
      (dictSet_wfObj acc k v h2 (h3 (k, v) (by simp)))
      (fun m2 hm2 => h3 m2 (by simp [hm2]))

/-- Folding members with fresh, duplicate-free keys appends them all. -/
theorem objBuild_id (ms : List (String × JValue)) :
    ∀ acc, (∀ k ∈ ms.map Prod.fst, ¬ k ∈ acc.map Prod.fst) →
      keysNodup (ms.map Prod.fst) = true → objBuild acc ms = acc ++ ms := by
  induction ms with
  | nil => simp [objBuild]
  | cons m rest ih =>
    intro acc hfresh hnd
    obtain ⟨k, v⟩ := m
    simp only [List.map_cons, keysNodup, Bool.and_eq_true, Bool.not_eq_eq_eq_not,
      Bool.not_true, decide_eq_false_iff_not] at hnd
    show objBuild (dictSet acc k v) rest = _
    rw [dictSet_append acc k v (hfresh k (by simp))]
    rw [ih (acc ++ [(k, v)]) ?_ hnd.2]
    · simp
    · intro k2 hk2
      simp only [List.map_append, List.mem_append, List.map_cons]
      push_neg
      constructor
      · exact hfresh k2 (by simp [hk2])
      · simp only [List.map_nil, List.mem_singleton]
        intro he
        subst he
        exact hnd.1 hk2

/-! ## Claim C8: whatever the parser yields is well-formed -/

/-- Number parses are well-formed. -/
theorem parseNumber_wf (l : List Char) (v : JValue) (r : List Char)
    (h : parseNumber l = some (v, r)) : wfVal v = true := by
  rw [parseNumber.eq_def] at h
  split at h
  · exact Option.noConfusion h
  · split at h
    · split at h
      · cases h
        rfl
      · exact Option.noConfusion h
    · split at h
      · cases h
        rfl
      · exact Option.noConfusion h

/-- Member lists that are well-formed have well-formed values throughout. -/
theorem wfObj_mem (ms : List (String × JValue)) (h : wfObj ms = true) :
    ∀ m ∈ ms, wfVal m.2 = true := by
  induction ms with
  | nil => intro m hm; exact absurd hm (by simp)
  | cons m2 rest ih =>
    simp only [wfObj, Bool.and_eq_true] at h
    intro m hm
    rcases List.mem_cons.mp hm with he | he
    · subst he
      exact h.1
    · exact ih h.2 m he

/-- Whatever any of the six parsing functions yields is well-formed: keys of
every object are duplicate-free by the dict construction. -/
theorem parse_wf : ∀ fuel : Nat,
    (∀ l v r, parseVal fuel l = some (v, r) → wfVal v = true) ∧
    (∀ l v r, parseArrRest fuel l = some (v, r) → wfVal v = true) ∧
    (∀ l vs r, parseArrTail fuel l = some (vs, r) → wfArr vs = true) ∧
    (∀ l m r, parseMember fuel l = some (m, r) → wfVal m.2 = true) ∧
    (∀ l v r, parseObjRest fuel l = some (v, r) → wfVal v = true) ∧
    (∀ l ms r, parseObjTail fuel l = some (ms, r) → wfObj ms = true) := by
  intro fuel
  induction fuel with
  | zero =>
    refine ⟨?_, ?_, ?_, ?_, ?_, ?_⟩ <;> (intro l a r h; exact Option.noConfusion h)
  | succ fuel ih =>
    obtain ⟨ihV, ihAR, ihAT, ihM, ihOR, ihOT⟩ := ih
    refine ⟨?_, ?_, ?_, ?_, ?_, ?_⟩
    · intro l v r h
      simp only [parseVal] at h
      split at h
      · exact Option.noConfusion h
      · split at h
        · split at h
          · cases h
            rfl
          · exact Option.noConfusion h
        · split at h
          · exact ihAR _ _ _ h
          · split at h
            · exact ihOR _ _ _ h
            · split at h
              · split at h
                · cases h
                  rfl
                · exact Option.noConfusion h
              · split at h
                · split at h
                  · cases h
                    rfl
                  · exact Option.noConfusion h
                · split at h
                  · split at h
                    · cases h
                      rfl
                    · exact Option.noConfusion h
                  · exact parseNumber_wf _ _ _ h
    · intro l v r h
      simp only [parseArrRest] at h
      split at h
      · exact Option.noConfusion h
      · split at h
        · cases h
          rfl
        · split at h
          · split at h
            · cases h
              rename_i hpv x vs2 hpt
              show (wfVal _ && wfArr _) = true
              rw [ihV _ _ _ hpv, ihAT _ _ _ hpt]
              rfl
            · exact Option.noConfusion h
          · exact Option.noConfusion h
    · intro l vs r h
      simp only [parseArrTail] at h
      split at h
      · exact Option.noConfusion h
      · split at h
        · cases h
          rfl
        · split at h
          · split at h
            · split at h
              · cases h
                rename_i hpv x vs2 hpt
                show (wfVal _ && wfArr _) = true
                rw [ihV _ _ _ hpv, ihAT _ _ _ hpt]
                rfl
              · exact Option.noConfusion h
            · exact Option.noConfusion h
          · exact Option.noConfusion h
    · intro l m r h
      simp only [parseMember] at h
      split at h
      · exact Option.noConfusion h
      · split at h
        · split at h
          · split at h
            · split at h
              · cases h
                rename_i hpv
                exact ihV _ _ _ hpv
              · exact Option.noConfusion h
            · exact Option.noConfusion h
          · exact Option.noConfusion h
        · exact Option.noConfusion h
    · intro l v r h
      simp only [parseObjRest] at h
      split at h
      · exact Option.noConfusion h
      · split at h
        · cases h
          rfl
        · split at h
          · split at h
            · cases h
              rename_i m r3 hpm x ms hpt
              have hm := ihM _ _ _ hpm
              have ht := ihOT _ _ _ hpt
              have hall : ∀ m2 ∈ (m :: ms), wfVal m2.2 = true := by
                intro m2 hm2
                rcases List.mem_cons.mp hm2 with he | he
                · subst he
                  exact hm
                · exact wfObj_mem ms ht m2 he
              have hw := objBuild_wf (m :: ms) [] rfl rfl hall
              show (keysNodup ((objBuild [] (m :: ms)).map Prod.fst) &&
                wfObj (objBuild [] (m :: ms))) = true
              rw [hw.1, hw.2]
              rfl
            · exact Option.noConfusion h
          · exact Option.noConfusion h
    · intro l ms r h
      simp only [parseObjTail] at h
      split at h
      · exact Option.noConfusion h
      · split at h
        · cases h
          rfl
        · split at h
          · split at h
            · split at h
              · cases h
                rename_i hpm x ms2 hpt
                show (wfVal _ && wfObj _) = true
                rw [ihM _ _ _ hpm, ihOT _ _ _ hpt]
                rfl
              · exact Option.noConfusion h
            · exact Option.noConfusion h
          · exact Option.noConfusion h

/-! ## Claim C8: navigating the parser over serialized text -/

/-- A leading space is skipped by the value parser. -/
theorem parseVal_cons_space (fuel : Nat) (l : List Char) :
    parseVal (fuel + 1) (' ' :: l) = parseVal (fuel + 1) l := by
  simp only [parseVal]
  rw [show List.dropWhile isJsonWs (' ' :: l) = List.dropWhile isJsonWs l from by
    rw [List.dropWhile_cons]
    simp [isJsonWs]]

/-- A leading space is skipped by the member parser. -/
theorem parseMember_cons_space (fuel : Nat) (l : List Char) :
    parseMember (fuel + 1) (' ' :: l) = parseMember (fuel + 1) l := by
  simp only [parseMember]
  rw [show List.dropWhile isJsonWs (' ' :: l) = List.dropWhile isJsonWs l from by
    rw [List.dropWhile_cons]
    simp [isJsonWs]]

/-- On a non-literal head the value parser defers to the number parser. -/
theorem parseVal_number (fuel : Nat) (c : Char) (r : List Char)
    (hws : isJsonWs c = false) (h1 : c ≠ '"') (h2 : c ≠ '[') (h3 : c ≠ '{')
    (h4 : c ≠ 'n') (h5 : c ≠ 't') (h6 : c ≠ 'f') :
    parseVal (fuel + 1) (c :: r) = parseNumber (c :: r) := by
  simp only [parseVal]
  rw [List.dropWhile_cons]
  simp only [hws, Bool.false_eq_true, if_false]
  rw [if_neg h1, if_neg h2, if_neg h3, if_neg h4, if_neg h5, if_neg h6]

/-- On a non-closing head the array parser reads a first element. -/
theorem parseArrRest_cons (fuel : Nat) (c : Char) (r : List Char)
    (hws : isJsonWs c = false) (hc : c ≠ ']') :
    parseArrRest (fuel + 1) (c :: r) =
      (match parseVal fuel (c :: r) with
       | some (v, r2) =>
         match parseArrTail fuel r2 with
         | some (vs, r3) => some (.arr (v :: vs), r3)
         | none => none
       | none => none) := by
  simp only [parseArrRest]
  rw [List.dropWhile_cons]
  simp only [hws, Bool.false_eq_true, if_false]
  rw [if_neg hc]

/-- On a non-closing head the object parser reads a first member. -/
theorem parseObjRest_cons (fuel : Nat) (c : Char) (r : List Char)
    (hws : isJsonWs c = false) (hc : c ≠ '}') :
    parseObjRest (fuel + 1) (c :: r) =
      (match parseMember fuel (c :: r) with
       | some (m, r2) =>
         match parseObjTail fuel r2 with
         | some (ms, r3) => some (.obj (objBuild [] (m :: ms)), r3)
         | none => none
       | none => none) := by
  simp only [parseObjRest]
  rw [List.dropWhile_cons]
  simp only [hws, Bool.false_eq_true, if_false]
  rw [if_neg hc]

/-- The text after a serialized array tail cannot extend a number. -/
theorem numSafe_dumpArrTail (l : List JValue) (rest : List Char) :
    numSafe (dumpArrTail l ++ rest) = true := by
  cases l with
  | nil => rfl
  | cons x xs => rfl

/-- The text after a serialized object tail cannot extend a number. -/
theorem numSafe_dumpObjTail (l : List (String × JValue)) (rest : List Char) :
    numSafe (dumpObjTail l ++ rest) = true := by
  cases l with
  | nil => rfl
  | cons m ms => rfl

/-- Every value needs at least one unit of fuel. -/
theorem msize_pos : ∀ v : JValue, 1 ≤ msize v := by
  intro v
  cases v <;> simp [msize]

mutual

/-- The value parser reads back any well-formed, fence-free serialized value,
leaving exactly the trailing text, whenever that text cannot extend a
number and the fuel covers the measure. -/
theorem parseVal_dump : ∀ v : JValue, ∀ rest fuel, wfVal v = true → ffVal v = true →
    msize v ≤ fuel → numSafe rest = true →
    parseVal fuel (dumpVal v ++ rest) = some (v, rest)
  | .null => by
    intro rest fuel _ _ hm _
    obtain ⟨f2, rfl⟩ : ∃ f2, fuel = f2 + 1 := by
      have h1 : (1 : Nat) ≤ fuel := le_trans (by simp [msize]) hm
      exact ⟨fuel - 1, by omega⟩
    rfl
  | .bool b => by
    intro rest fuel _ _ hm _
    obtain ⟨f2, rfl⟩ : ∃ f2, fuel = f2 + 1 := by
      have h1 : (1 : Nat) ≤ fuel := le_trans (by cases b <;> simp [msize]) hm
      exact ⟨fuel - 1, by omega⟩
    cases b with
    | true => rfl
    | false => rfl
  | .num n => by
    intro rest fuel _ _ hm hr
    obtain ⟨f2, rfl⟩ : ∃ f2, fuel = f2 + 1 := by
      have h1 : (1 : Nat) ≤ fuel := le_trans (by simp [msize]) hm
      exact ⟨fuel - 1, by omega⟩
    show parseVal (f2 + 1) (intChars n ++ rest) = some (.num n, rest)
    by_cases hneg : n < 0
    · have he : intChars n ++ rest = '-' :: (natChars n.natAbs ++ rest) := by
        simp [intChars, if_pos hneg]
      rw [he, parseVal_number f2 '-' _ (by decide) (by decide) (by decide) (by decide)
        (by decide) (by decide) (by decide)]
      have h2 := parseNumber_intChars n rest hr
      rw [show intChars n ++ rest = '-' :: (natChars n.natAbs ++ rest) from he] at h2
      exact h2
    · obtain ⟨d, ds, hds⟩ : ∃ d ds, natChars n.natAbs = d :: ds := by
        cases he : natChars n.natAbs with
        | nil => exact absurd he (natChars_ne_nil n.natAbs)
        | cons d ds => exact ⟨d, ds, rfl⟩
      obtain ⟨m, hmlt, hdm⟩ := natChars_mem_digitCh n.natAbs d (by rw [hds]; simp)
      subst hdm
      have hfacts := digitCh_facts m hmlt
      have hnes := digitCh_ne m hmlt
      have he : intChars n ++ rest = digitCh m :: (ds ++ rest) := by
        simp [intChars, if_neg hneg, hds]
      rw [he, parseVal_number f2 (digitCh m) _ hfacts.2.2.1 hnes.1 hnes.2.1 hnes.2.2.1
        hnes.2.2.2.1 hnes.2.2.2.2.1 hnes.2.2.2.2.2.1]
      have h2 := parseNumber_intChars n rest hr
      rw [show intChars n ++ rest = digitCh m :: (ds ++ rest) from he] at h2
      exact h2
  | .str s => by
    intro rest fuel _ _ hm _
    obtain ⟨f2, rfl⟩ : ∃ f2, fuel = f2 + 1 := by
      have h1 : (1 : Nat) ≤ fuel := le_trans (by simp [msize]) hm
      exact ⟨fuel - 1, by omega⟩
    have he : dumpVal (.str s) ++ rest = '"' :: (escBody s.data ++ ('"' :: rest)) := by
      show ('"' :: (escBody s.data ++ ['"'])) ++ rest = _
      simp
    rw [he]
    show (match parseStrBody (escBody s.data ++ ('"' :: rest)) with
      | some (cs, r2) => some (JValue.str (String.mk cs), r2)
      | none => none) = some (JValue.str s, rest)
    rw [parseStrBody_escBody s.data rest]
  | .arr l => by
    intro rest fuel hw hf hm hr
    cases l with
    | nil =>
      obtain ⟨f3, rfl⟩ : ∃ f3, fuel = f3 + 2 := by
        have h1 : (2 : Nat) ≤ fuel := le_trans (by simp [msize, needTail]) hm
        exact ⟨fuel - 2, by omega⟩
      rfl
    | cons x xs =>
      have hwx : wfVal x = true ∧ wfArr xs = true := by
        have : wfArr (x :: xs) = true := hw
        simpa [wfArr, Bool.and_eq_true] using this
      have hfx : ffVal x = true ∧ ffArr xs = true := by
        have : ffArr (x :: xs) = true := hf
        simpa [ffArr, Bool.and_eq_true] using this
      have hm2 : 1 + (1 + max (msize x) (needTail xs)) ≤ fuel := by
        simpa [msize, needTail] using hm
      obtain ⟨f3, rfl⟩ : ∃ f3, fuel = f3 + 2 := ⟨fuel - 2, by omega⟩
      show parseArrRest (f3 + 1) ((dumpVal x ++ dumpArrTail xs) ++ rest) =
        some (.arr (x :: xs), rest)
      rw [List.append_assoc]
      obtain ⟨hc, ht, he, hnw, _, hne1, _, _, _⟩ := dumpVal_head x
      rw [show dumpVal x ++ (dumpArrTail xs ++ rest) =
        hc :: (ht ++ (dumpArrTail xs ++ rest)) from by rw [he]; simp]
      rw [parseArrRest_cons f3 hc _ hnw hne1]
      rw [show hc :: (ht ++ (dumpArrTail xs ++ rest)) =
        dumpVal x ++ (dumpArrTail xs ++ rest) from by rw [he]; simp]
      rw [parseVal_dump x (dumpArrTail xs ++ rest) f3 hwx.1 hfx.1 (by omega)
        (numSafe_dumpArrTail xs rest)]
      show (match parseArrTail f3 (dumpArrTail xs ++ rest) with
        | some (vs, r3) => some (JValue.arr (x :: vs), r3)
        | none => none) = some (JValue.arr (x :: xs), rest)
      rw [parseArrTail_dump xs rest f3 hwx.2 hfx.2 (by omega)]
  | .obj l => by
    intro rest fuel hw hf hm hr
    cases l with
    | nil =>
      obtain ⟨f3, rfl⟩ : ∃ f3, fuel = f3 + 2 := by
        have h1 : (2 : Nat) ≤ fuel := le_trans (by simp [msize, needMTail]) hm
        exact ⟨fuel - 2, by omega⟩
      rfl
    | cons m ms =>
      obtain ⟨k, v⟩ := m
      have hwx : keysNodup (((k, v) :: ms).map Prod.fst) = true ∧
          wfObj ((k, v) :: ms) = true := by
        have : (keysNodup (((k, v) :: ms).map Prod.fst) && wfObj ((k, v) :: ms)) = true := hw
        simpa [Bool.and_eq_true] using this
      have hwv : wfVal v = true ∧ wfObj ms = true := by
        have := hwx.2
        simpa [wfObj, Bool.and_eq_true] using this
      have hfx : (!fence3 k.data && ffVal v) = true ∧ ffObj ms = true := by
        have : ffObj ((k, v) :: ms) = true := hf
        simp only [ffObj, Bool.and_eq_true] at this
        exact ⟨by simp [this.1.1, this.1.2], this.2⟩
      have hm2 : 1 + (1 + max (1 + msize v) (needMTail ms)) ≤ fuel := by
        simpa [msize, needMTail] using hm
      obtain ⟨f3, rfl⟩ : ∃ f3, fuel = f3 + 2 := ⟨fuel - 2, by omega⟩
      show parseObjRest (f3 + 1) ((dumpMember (k, v) ++ dumpObjTail ms) ++ rest) =
        some (.obj ((k, v) :: ms), rest)
      rw [List.append_assoc]
      have he : dumpMember (k, v) ++ (dumpObjTail ms ++ rest) =
          '"' :: ((escBody k.data ++ ['"']) ++
            ((':' :: ' ' :: dumpVal v) ++ (dumpObjTail ms ++ rest))) := by
        show (('"' :: (escBody k.data ++ ['"'])) ++ (':' :: ' ' :: dumpVal v)) ++
          (dumpObjTail ms ++ rest) = _
        simp
      rw [he, parseObjRest_cons f3 '"' _ (by decide) (by decide)]
      rw [show ('"' : Char) :: ((escBody k.data ++ ['"']) ++
          ((':' :: ' ' :: dumpVal v) ++ (dumpObjTail ms ++ rest))) =
        dumpMember (k, v) ++ (dumpObjTail ms ++ rest) from by rw [he]]
      rw [parseMember_dump (k, v) (dumpObjTail ms ++ rest) f3 hwv.1
        hfx.1 (by show 1 + msize v ≤ f3; omega) (numSafe_dumpObjTail ms rest)]
      show (match parseObjTail f3 (dumpObjTail ms ++ rest) with
        | some (ms2, r3) => some (JValue.obj (objBuild [] ((k, v) :: ms2)), r3)
        | none => none) = some (JValue.obj ((k, v) :: ms), rest)
      rw [parseObjTail_dump ms rest f3 hwv.2 hfx.2 (by omega)]
      show some (JValue.obj (objBuild [] ((k, v) :: ms)), rest) =
        some (JValue.obj ((k, v) :: ms), rest)
      rw [objBuild_id ((k, v) :: ms) [] (by simp) hwx.1]
      rfl

/-- The array-tail parser reads back serialized elements after the first. -/
theorem parseArrTail_dump : ∀ l : List JValue, ∀ rest fuel, wfArr l = true →
    ffArr l = true → needTail l ≤ fuel →
    parseArrTail fuel (dumpArrTail l ++ rest) = some (l, rest)
  | [] => by
    intro rest fuel _ _ hm
    obtain ⟨f2, rfl⟩ : ∃ f2, fuel = f2 + 1 := by
      have h1 : (1 : Nat) ≤ fuel := le_trans (by simp [needTail]) hm
      exact ⟨fuel - 1, by omega⟩
    rfl
  | x :: xs => by
    intro rest fuel hw hf hm
    have hwx : wfVal x = true ∧ wfArr xs = true := by
      simpa [wfArr, Bool.and_eq_true] using hw
    have hfx : ffVal x = true ∧ ffArr xs = true := by
      simpa [ffArr, Bool.and_eq_true] using hf
    have hm2 : 1 + max (msize x) (needTail xs) ≤ fuel := by
      simpa [needTail] using hm
    have hx1 := msize_pos x
    obtain ⟨f3, rfl⟩ : ∃ f3, fuel = f3 + 2 := ⟨fuel - 2, by omega⟩
    show (match parseVal (f3 + 1) (' ' :: ((dumpVal x ++ dumpArrTail xs) ++ rest)) with
      | some (v, r2) =>
        match parseArrTail (f3 + 1) r2 with
        | some (vs, r3) => some (v :: vs, r3)
        | none => none
      | none => none) = some (x :: xs, rest)
    rw [parseVal_cons_space f3, List.append_assoc]
    rw [parseVal_dump x (dumpArrTail xs ++ rest) (f3 + 1) hwx.1 hfx.1 (by omega)
      (numSafe_dumpArrTail xs rest)]
    show (match parseArrTail (f3 + 1) (dumpArrTail xs ++ rest) with
      | some (vs, r3) => some (x :: vs, r3)
      | none => none) = some (x :: xs, rest)
    rw [parseArrTail_dump xs rest (f3 + 1) hwx.2 hfx.2 (by omega)]

/-- The member parser reads back a serialized key-value member. -/
theorem parseMember_dump : ∀ m : String × JValue, ∀ rest fuel, wfVal m.2 = true →
    (!fence3 m.1.data && ffVal m.2) = true → 1 + msize m.2 ≤ fuel →
    numSafe rest = true →
    parseMember fuel (dumpMember m ++ rest) = some (m, rest)
  | (k, v) => by
    intro rest fuel hw hf hm hr
    have hv1 := msize_pos v
    have hm2 : 1 + msize v ≤ fuel := hm
    obtain ⟨f3, rfl⟩ : ∃ f3, fuel = f3 + 2 := ⟨fuel - 2, by omega⟩
    have he : dumpMember (k, v) ++ rest =
        '"' :: (escBody k.data ++ ('"' :: (':' :: ' ' :: (dumpVal v ++ rest)))) := by
      show (('"' :: (escBody k.data ++ ['"'])) ++ (':' :: ' ' :: dumpVal v)) ++ rest = _
      simp
    rw [he]
    show (match parseStrBody (escBody k.data ++ ('"' :: (':' :: ' ' ::
        (dumpVal v ++ rest)))) with
      | some (cs, r2) =>
        match r2.dropWhile isJsonWs with
        | ':' :: r3 =>
          match parseVal (f3 + 1) r3 with
          | some (v2, r4) => some ((String.mk cs, v2), r4)
          | none => none
        | _ => none
      | none => none) = some ((k, v), rest)
    rw [parseStrBody_escBody]
    show (match parseVal (f3 + 1) (' ' :: (dumpVal v ++ rest)) with
      | some (v2, r4) => some ((String.mk k.data, v2), r4)
      | none => none) = some ((k, v), rest)
    rw [parseVal_cons_space f3]
    have hfv : ffVal v = true := by
      have hf2 : (!fence3 k.data && ffVal v) = true := hf
      simp only [Bool.and_eq_true] at hf2
      exact hf2.2
    rw [parseVal_dump v rest (f3 + 1) hw hfv (by omega) hr]

/-- The object-tail parser reads back serialized members after the first. -/
theorem parseObjTail_dump : ∀ l : List (String × JValue), ∀ rest fuel,
    wfObj l = true → ffObj l = true → needMTail l ≤ fuel →
    parseObjTail fuel (dumpObjTail l ++ rest) = some (l, rest)
  | [] => by
    intro rest fuel _ _ hm
    obtain ⟨f2, rfl⟩ : ∃ f2, fuel = f2 + 1 := by
      have h1 : (1 : Nat) ≤ fuel := le_trans (by simp [needMTail]) hm
      exact ⟨fuel - 1, by omega⟩
    rfl
  | m :: ms => by
    intro rest fuel hw hf hm
    obtain ⟨k, v⟩ := m
    have hwv : wfVal v = true ∧ wfObj ms = true := by
      simpa [wfObj, Bool.and_eq_true] using hw
    have hfx : (!fence3 k.data && ffVal v) = true ∧ ffObj ms = true := by
      simp only [ffObj, Bool.and_eq_true] at hf
      exact ⟨by simp [hf.1.1, hf.1.2], hf.2⟩
    have hm2 : 1 + max (1 + msize v) (needMTail ms) ≤ fuel := by
      simpa [needMTail] using hm
    obtain ⟨f3, rfl⟩ : ∃ f3, fuel = f3 + 2 := ⟨fuel - 2, by omega⟩
    show (match parseMember (f3 + 1) (' ' :: ((dumpMember (k, v) ++ dumpObjTail ms) ++
        rest)) with
      | some (m2, r2) =>
        match parseObjTail (f3 + 1) r2 with
        | some (ms2, r3) => some (m2 :: ms2, r3)
        | none => none
      | none => none) = some ((k, v) :: ms, rest)
    rw [parseMember_cons_space f3, List.append_assoc]
    rw [parseMember_dump (k, v) (dumpObjTail ms ++ rest) (f3 + 1) hwv.1 hfx.1
      (by show 1 + msize v ≤ f3 + 1; omega) (numSafe_dumpObjTail ms rest)]
    show (match parseObjTail (f3 + 1) (dumpObjTail ms ++ rest) with
      | some (ms2, r3) => some ((k, v) :: ms2, r3)
      | none => none) = some ((k, v) :: ms, rest)
    rw [parseObjTail_dump ms rest (f3 + 1) hwv.2 hfx.2 (by omega)]

end

/-- The top-level parse model yields only values with key-unique objects. -/
theorem jsonParse_wf (l : List Char) (v : JValue) (h : jsonParse l = some v) :
    wfVal v = true := by
  unfold jsonParse at h
  split at h
  · rename_i v2 rest hp
    split at h
    · injection h with h2
      subst h2
      exact (parse_wf (l.length + 1)).1 l v2 rest hp
    · exact Option.noConfusion h
  · exact Option.noConfusion h

/-- The parse model reads back the serialization of any key-unique,
fence-free value. -/
theorem jsonParse_dumps (v : JValue) (hw : wfVal v = true) (hf : ffVal v = true) :
    jsonParse (dumps v).data = some v := by
  show jsonParse (dumpVal v) = some v
  unfold jsonParse
  have h1 : parseVal ((dumpVal v).length + 1) (dumpVal v) = some (v, []) := by
    have h2 := parseVal_dump v [] ((dumpVal v).length + 1) hw hf (msize_le_len v) rfl
    simpa using h2
  rw [h1]
  rfl

/-- The whole normalizer reads back the serialization of any key-unique,
fence-free value. -/
theorem parse_llm_json_dumps (v : JValue) (hw : wfVal v = true)
    (hf : ffVal v = true) : parse_llm_json (dumps v) = v := by
  unfold parse_llm_json
  show (match jsonParse (clean (dumpVal v)) with
    | some v2 => v2
    | none => JValue.arr [fallbackDay (dumps v)]) = v
  rw [clean_dumpVal v hf]
  rw [show jsonParse (dumpVal v) = jsonParse (dumps v).data from rfl,
    jsonParse_dumps v hw hf]

/-- Claim C8, counterexample: an input written as a JSON string literal whose
three backticks are spelled with backslash-u escapes is valid JSON and
carries no fence markup, yet normalizing the canonical re-serialization of
its normalization yields a different value: the re-serialization writes the
backticks raw, and the cleaning step of the second pass deletes them. -/
theorem parse_llm_json_reserialize_diverges :
    jsonParse (clean ("\"\\u0060\\u0060\\u0060\"" : String).data) =
      some (JValue.str "```") ∧
    fence3 ("\"\\u0060\\u0060\\u0060\"" : String).data = false ∧
    parse_llm_json (dumps (parse_llm_json "\"\\u0060\\u0060\\u0060\"")) ≠
      parse_llm_json "\"\\u0060\\u0060\\u0060\"" := by
  refine ⟨rfl, rfl, ?_⟩
  intro h
  have h2 : JValue.str "" = JValue.str "```" := h
  injection h2 with e
  exact absurd e (by decide)

/-- Claim C8 (amended): parse_llm_json is idempotent under canonical
re-serialization on every input text whose cleaned form strictly parses and
whose parsed value carries no triple backtick inside any of its strings (so
that the canonical re-serialization also carries no fence markup):
normalizing the json.dumps serialization of parse_llm_json(text) yields a
structure equal to parse_llm_json(text). -/
theorem parse_llm_json_idempotent (text : String) (v : JValue)
    (hparse : jsonParse (clean text.data) = some v) (hfence : ffVal v = true) :
    parse_llm_json (dumps (parse_llm_json text)) = parse_llm_json text := by
  have hv : parse_llm_json text = v := by
    unfold parse_llm_json
    rw [hparse]
  rw [hv]
  exact parse_llm_json_dumps v (jsonParse_wf (clean text.data) v hparse) hfence

/-- Witness for the amended idempotence claim at the concrete input "[1, 2]". -/
theorem parse_llm_json_idempotent_witness :
    jsonParse (clean ("[1, 2]" : String).data) =
      some (JValue.arr [JValue.num 1, JValue.num 2]) ∧
    ffVal (JValue.arr [JValue.num 1, JValue.num 2]) = true ∧
    parse_llm_json (dumps (parse_llm_json "[1, 2]")) = parse_llm_json "[1, 2]" :=
  ⟨rfl, rfl, parse_llm_json_idempotent "[1, 2]"
    (JValue.arr [JValue.num 1, JValue.num 2]) rfl rfl⟩

end TravelPlanner
